import Mathlib

/-!
Verification of the stroke-generation core of `img_to_swipes`
(`src/geometry.py`): geometric primitives, the bounded breadth-first path
finder `find_path`, and the stateful stroke generator `_PolygonGenerator`
driving `points_to_polygons`.

Modelling conventions:
* Python `Point` dataclasses become a structure over `Int` coordinates.
* Python `set[Point]` values become `List Point`; iteration order of a
  Python hash set is unspecified (the spec flags this as an open question),
  so the list order stands for one such iteration order, and `next(iter(s))`
  becomes taking the head of the list.
* `collections.Counter` becomes a `List Point` multiset: `Counter.update`
  and `+= 1` append occurrences, `counter[p]` is `List.count`.
* `find_contours` builds an occupancy mask and delegates the actual boundary
  trace to the external `cv2.findContours`; the whole function is abstracted
  as an oracle `List Point → List (List Point)`.  Modelled from the spec
  (§4.1 Contour Extractor): the missing `cv2.findContours` trace returns
  closed boundary loops lying entirely within the given set, consecutive
  loop points being 8-adjacent.  Theorems that depend on contour content
  take these contract facts as hypotheses on the oracle.
* Loops (`while`) become fuel-based recursion; the fuel chosen at each call
  site dominates the loop's iteration bound.
* Functions that can raise become `Except String`-valued wrappers around the
  total core definitions.
-/

namespace ImgToSwipes

/-- `Point` from `geometry.py`: an immutable integer coordinate pair. -/
structure Point where
  x : Int
  y : Int
deriving DecidableEq, Repr

/-- `Point.neighbors`: the 8 neighbors, in the exact enumeration order of the
source (left, right, up, down, then the four diagonals). -/
def Point.neighbors (p : Point) : List Point :=
  [⟨p.x - 1, p.y⟩, ⟨p.x + 1, p.y⟩, ⟨p.x, p.y - 1⟩, ⟨p.x, p.y + 1⟩,
   ⟨p.x - 1, p.y - 1⟩, ⟨p.x - 1, p.y + 1⟩, ⟨p.x + 1, p.y - 1⟩, ⟨p.x + 1, p.y + 1⟩]

/-- Chebyshev distance between two points. -/
def chebDist (p q : Point) : Nat :=
  max (p.x - q.x).natAbs (p.y - q.y).natAbs

/-- The per-pair stroke adjacency property of the spec: consecutive stroke
points are equal (padding) or at Chebyshev distance exactly 1. -/
def adjacentOrEq (a b : Point) : Prop :=
  b = a ∨ chebDist a b = 1

instance : DecidableRel adjacentOrEq := fun a b =>
  inferInstanceAs (Decidable (b = a ∨ chebDist a b = 1))

/-- `Polygon.split` from the source: slice the point list into consecutive
chunks of `maxLength` points (the final chunk may be shorter).  The source
iterates `range(0, len(points), max_length)`; a fuel argument bounds the
recursion, `l.length` steps always suffice for `maxLength ≥ 1`. -/
def chunksGo (maxLength : Nat) : Nat → List Point → List (List Point)
  | 0, _ => []
  | _, [] => []
  | fuel + 1, l => l.take maxLength :: chunksGo maxLength fuel (l.drop maxLength)

/-- `Polygon.split` for a strictly positive `maxLength` (the `max_length <= 0`
guard raises and is modelled in the `Except`-valued wrapper `splitE`). -/
def chunksOf (maxLength : Nat) (l : List Point) : List (List Point) :=
  chunksGo maxLength l.length l

/-- `Polygon.split` including its `max_length <= 0` `ValueError` guard. -/
def splitE (maxLength : Int) (l : List Point) : Except String (List (List Point)) :=
  if maxLength ≤ 0 then .error "Length must be greater than 0"
  else .ok (chunksOf maxLength.toNat l)

/-- The body of the `for neighbor in last_point.neighbors` loop of
`find_path`, folded over the neighbor list `ns` of the popped path's last
point.  `path` is the popped path (stored reversed), `visited` the
visited-this-search set, `acc` the queue entries appended so far this
iteration.  Returns `(found, visited, acc)` where `found = some f` models the
early `return Polygon(current_path)` (with `f` still reversed). -/
def expandStep (points : List Point) (pred : Point → Bool) (maxLen : Nat)
    (path : List Point) :
    List Point → List Point → List (List Point) →
    Option (List Point) × List Point × List (List Point)
  | [], visited, acc => (none, visited, acc)
  | n :: ns, visited, acc =>
    if n ∈ points then
      if n ∈ visited then expandStep points pred maxLen path ns visited acc
      else if pred n then (some (n :: path), visited, acc)
      else if path.length = maxLen - 1 then expandStep points pred maxLen path ns visited acc
      else expandStep points pred maxLen path ns (visited ++ [n]) (acc ++ [n :: path])
    else expandStep points pred maxLen path ns visited acc

/-- The `while queue` loop of `find_path`.  `queue.pop(0)` is taking the head,
`queue.append` adds at the end.  The loop runs at most `points.length + 1`
times (every queue append also adds a fresh member of `points` to `visited`),
which the caller supplies as fuel. -/
def bfsLoop (points : List Point) (pred : Point → Bool) (maxLen : Nat) :
    Nat → List (List Point) → List Point → Option (List Point)
  | 0, _, _ => none
  | _ + 1, [], _ => none
  | fuel + 1, path :: rest, visited =>
    match expandStep points pred maxLen path (path.headD ⟨0, 0⟩).neighbors visited [] with
    | (some found, _, _) => some found.reverse
    | (none, visited2, newPaths) =>
        bfsLoop points pred maxLen fuel (rest ++ newPaths) visited2

/-- `find_path` for a strictly positive `max_length` (the `max_length <= 0`
`ValueError` guard is modelled in `findPathE`).  Returns the found path in
source order (start first). -/
def findPath (start : Point) (points : List Point) (maxLen : Nat)
    (pred : Point → Bool) : Option (List Point) :=
  if maxLen = 1 then
    if pred start then some [start] else none
  else
    bfsLoop points pred maxLen (points.length + 1) [[start]] []

/-- `find_path` including its `max_length <= 0` `ValueError` guard. -/
def findPathE (start : Point) (points : List Point) (maxLen : Int)
    (pred : Point → Bool) : Except String (Option (List Point)) :=
  if maxLen ≤ 0 then .error "Max length must be greater than 0"
  else .ok (findPath start points maxLen.toNat pred)

/-- Invariant of every entry of the `find_path` queue: a nonempty reversed
path ending (in source order: starting) at `start`, strictly shorter than
`max_length`, consecutive points 8-adjacent, whose non-`start` portion is
duplicate-free and recorded in both `visited` and `points`.  (`start` itself
is never added to `visited` by the source.) -/
def PathInv (start : Point) (points : List Point) (maxLen : Nat)
    (visited : List Point) (path : List Point) : Prop :=
  path ≠ [] ∧ path.getLast? = some start ∧ path.length < maxLen ∧
  List.Chain' (fun a b => a ∈ b.neighbors) path ∧
  path.dropLast.Nodup ∧ (∀ x ∈ path.dropLast, x ∈ visited ∧ x ∈ points)

/-- Reachability within the `find_path` budget: some path of at most
`maxLen` points starts at `start`, steps only between 8-neighbors, stays
inside `points` after the start, and ends on a point satisfying `pred`. -/
def ReachesWithin (start : Point) (points : List Point) (maxLen : Nat)
    (pred : Point → Bool) : Prop :=
  ∃ l : List Point, l ≠ [] ∧ l.head? = some start ∧ l.length ≤ maxLen ∧
    (∀ x ∈ l.drop 1, x ∈ points) ∧ List.Chain' (fun a b => b ∈ a.neighbors) l ∧
    pred (l.getLastD start) = true

/-- `visit_count.most_common(1)[0][1]`: the largest multiplicity in the
counter (the source only calls this on a non-empty counter). -/
def maxVisit (vc : List Point) : Nat :=
  (vc.map (fun p => vc.count p)).foldr max 0

/-- The `for neighbor in point.neighbors` loop of
`_find_least_visited_neighbor`: early-return any in-set neighbor that is
unvisited this pass and unused this stroke, otherwise track the in-set
neighbor with the fewest recorded visits (first minimum wins). -/
def flvnGo (unvisited points vc : List Point) :
    List Point → Option Point → Nat → Option Point
  | [], best, _ => best
  | n :: ns, best, minC =>
    if n ∈ points then
      if n ∈ unvisited ∧ n ∉ vc then some n
      else if vc.count n < minC then flvnGo unvisited points vc ns (some n) (vc.count n)
      else flvnGo unvisited points vc ns best minC
    else flvnGo unvisited points vc ns best minC

/-- `_PolygonGenerator._find_least_visited_neighbor`. -/
def findLeastVisitedNeighbor (unvisited points vc : List Point) (p : Point) :
    Option Point :=
  flvnGo unvisited points vc p.neighbors none (maxVisit vc + 1)

/-- The first `while len(points) < self._polygon_length` loop of
`_next_random_polygon`: extend at the tail via `find_path`, failing that at
the head (reversing the found path), with the live predicate
`is_unvisited(q) = q in unvisited and q not in visit_count`.  Each successful
iteration grows the stroke, so `L + 1` fuel covers the loop. -/
def growPaths (pts unvisited : List Point) (L : Nat) :
    Nat → List Point → List Point → List Point × List Point
  | 0, points, vc => (points, vc)
  | fuel + 1, points, vc =>
    if points.length < L then
      match findPath (points.getLastD ⟨0, 0⟩) pts (L - points.length)
          (fun q => decide (q ∈ unvisited) && !(decide (q ∈ vc))) with
      | some tail =>
          growPaths pts unvisited L fuel (points ++ tail.drop 1) (vc ++ tail.drop 1)
      | none =>
        match findPath (points.headD ⟨0, 0⟩) pts (L - points.length)
            (fun q => decide (q ∈ unvisited) && !(decide (q ∈ vc))) with
        | some head =>
            growPaths pts unvisited L fuel (head.reverse ++ points.drop 1) (vc ++ head.drop 1)
        | none => (points, vc)
    else (points, vc)

/-- The second `while len(points) < self._polygon_length` loop of
`_next_random_polygon`: greedy one-point extension at the tail, failing that
at the head, via `_find_least_visited_neighbor`. -/
def growGreedy (pts unvisited : List Point) (L : Nat) :
    Nat → List Point → List Point → List Point × List Point
  | 0, points, vc => (points, vc)
  | fuel + 1, points, vc =>
    if points.length < L then
      match findLeastVisitedNeighbor unvisited pts vc (points.getLastD ⟨0, 0⟩) with
      | some tn => growGreedy pts unvisited L fuel (points ++ [tn]) (vc ++ [tn])
      | none =>
        match findLeastVisitedNeighbor unvisited pts vc (points.headD ⟨0, 0⟩) with
        | some hn => growGreedy pts unvisited L fuel (hn :: points) (vc ++ [hn])
        | none => (points, vc)
    else (points, vc)

/-- `_PolygonGenerator._next_random_polygon` for `L ≥ 1`: seed with
`next(iter(unvisited))` (the head of the list modelling the set), run both
extension loops, then pad with the final last point up to exactly `L`
points.  The `[]` branch is unreachable: `__next__` only calls this with a
non-empty unvisited set. -/
def nextRandomPolygon (pts : List Point) (L : Nat) (unvisited : List Point) :
    List Point :=
  match unvisited with
  | [] => []
  | seed :: _ =>
    let grown := growPaths pts unvisited L (L + 1) [seed] [seed]
    let grown2 := growGreedy pts unvisited L (L + 1) grown.1 grown.2
    grown2.1 ++ List.replicate (L - grown2.1.length) (grown2.1.getLastD seed)

/-- `_next_random_polygon` over an `Int` length: with `polygon_length <= 0`
both while loops are skipped (`len(points) = 1 < L` fails) and the padding
`islice(repeat(last), L - 1)` raises `ValueError` on its negative count. -/
def nextRandomPolygonE (pts : List Point) (L : Int) (unvisited : List Point) :
    Except String (List Point) :=
  match unvisited with
  | [] => .error "StopIteration"
  | _ :: _ =>
    if L ≤ 0 then .error "Indices for islice() must be None or an integer"
    else .ok (nextRandomPolygon pts L.toNat unvisited)

/-- The working state of `_PolygonGenerator`: `unvisited` models
`_unvisited_points`, `contours` models `_unvisited_contours`
(`none` = the Python `None` sentinel, meaning contours are exhausted for
good). -/
structure GenState where
  unvisited : List Point
  contours : Option (List (List Point))
deriving DecidableEq, Repr

/-- `_PolygonGenerator.__init__`: copy the input set into `unvisited`, start
with an empty pending-chunk queue.  Note the source performs no validation
of `polygon_length` here. -/
def initState (pts : List Point) : GenState := ⟨pts, some []⟩

/-- The refill step of `_next_contour`: split every contour of the current
unvisited set and keep exactly the chunks of length `polygon_length`. -/
def refillChunks (oracle : List Point → List (List Point)) (L : Nat)
    (unvisited : List Point) : List (List Point) :=
  ((oracle unvisited).map
    (fun c => (chunksOf L c).filter (fun s => decide (s.length = L)))).flatten

/-- Refill step over an `Int` length: with at least one contour present,
`contour.split` raises on `polygon_length <= 0` as soon as its generator is
first advanced. -/
def refillChunksE (oracle : List Point → List (List Point)) (L : Int)
    (unvisited : List Point) : Except String (List (List Point)) :=
  if (oracle unvisited).isEmpty then .ok []
  else if L ≤ 0 then .error "Length must be greater than 0"
  else .ok (refillChunks oracle L.toNat unvisited)

/-- `_PolygonGenerator._next_contour`: pop the most recently appended pending
chunk (`list.pop()` is LIFO); if the queue is empty, refill it from the
contours of the current unvisited set; if the refill produces nothing, set
the queue to `None` forever and report no contour. -/
def nextContour (oracle : List Point → List (List Point)) (L : Nat) (s : GenState) :
    Option (List Point) × GenState :=
  match s.contours with
  | none => (none, s)
  | some q =>
    match q with
    | [] =>
      match refillChunks oracle L s.unvisited with
      | [] => (none, { s with contours := none })
      | c :: cs => ((c :: cs).getLast?, { s with contours := some (c :: cs).dropLast })
    | c :: cs => ((c :: cs).getLast?, { s with contours := some (c :: cs).dropLast })

/-- `_next_contour` over an `Int` length. -/
def nextContourE (oracle : List Point → List (List Point)) (L : Int) (s : GenState) :
    Except String (Option (List Point) × GenState) :=
  match s.contours with
  | none => .ok (none, s)
  | some q =>
    match q with
    | [] =>
      match refillChunksE oracle L s.unvisited with
      | .error e => .error e
      | .ok [] => .ok (none, { s with contours := none })
      | .ok (c :: cs) =>
          .ok ((c :: cs).getLast?, { s with contours := some (c :: cs).dropLast })
    | c :: cs => .ok ((c :: cs).getLast?, { s with contours := some (c :: cs).dropLast })

/-- `_PolygonGenerator.__next__`: stop iteration when `unvisited` is empty,
otherwise emit `self._next_contour() or self._next_random_polygon()` and
remove the emitted points from `unvisited`. -/
def genNext (oracle : List Point → List (List Point)) (pts : List Point) (L : Nat)
    (s : GenState) : Option (List Point × GenState) :=
  match s.unvisited with
  | [] => none
  | _ :: _ =>
    let cs := nextContour oracle L s
    let poly := match cs.1 with
      | some p => p
      | none => nextRandomPolygon pts L cs.2.unvisited
    some (poly,
      { cs.2 with unvisited := cs.2.unvisited.filter (fun x => decide (x ∉ poly)) })

/-- `__next__` over an `Int` length, propagating the raised errors. -/
def genNextE (oracle : List Point → List (List Point)) (pts : List Point) (L : Int)
    (s : GenState) : Except String (Option (List Point × GenState)) :=
  match s.unvisited with
  | [] => .ok none
  | _ :: _ =>
    match nextContourE oracle L s with
    | .error e => .error e
    | .ok (some p, s1) =>
        .ok (some (p, { s1 with unvisited := s1.unvisited.filter (fun x => decide (x ∉ p)) }))
    | .ok (none, s1) =>
      match nextRandomPolygonE pts L s1.unvisited with
      | .error e => .error e
      | .ok poly =>
          .ok (some (poly,
            { s1 with unvisited := s1.unvisited.filter (fun x => decide (x ∉ poly)) }))

/-- Exhausting the generator: collect up to `fuel` strokes together with the
final state. -/
def runPass (oracle : List Point → List (List Point)) (pts : List Point) (L : Nat) :
    Nat → GenState → List (List Point) × GenState
  | 0, s => ([], s)
  | fuel + 1, s =>
    match genNext oracle pts L s with
    | none => ([], s)
    | some (p, s2) =>
      let rest := runPass oracle pts L fuel s2
      (p :: rest.1, rest.2)

/-- `points_to_polygons(points, polygon_length)`: the strokes of a whole
pass (with enough fuel to reach the `StopIteration` point). -/
def pointsToPolygons (oracle : List Point → List (List Point)) (pts : List Point)
    (L : Nat) (fuel : Nat) : List (List Point) :=
  (runPass oracle pts L fuel (initState pts)).1

/-- The whole pass over an `Int` length, propagating raised errors. -/
def runPassE (oracle : List Point → List (List Point)) (pts : List Point) (L : Int) :
    Nat → GenState → Except String (List (List Point))
  | 0, _ => .ok []
  | fuel + 1, s =>
    match genNextE oracle pts L s with
    | .error e => .error e
    | .ok none => .ok []
    | .ok (some (p, s2)) =>
      match runPassE oracle pts L fuel s2 with
      | .error e => .error e
      | .ok rest => .ok (p :: rest)

/-- Modelled from the spec (§4.1): the contour extractor returns boundary
loops that lie entirely within the queried point set.  (The loop content
itself comes from the external `cv2.findContours`, absent from the source.) -/
def Conforming (oracle : List Point → List (List Point)) : Prop :=
  ∀ s, ∀ c ∈ oracle s, ∀ x ∈ c, x ∈ s

/-- Modelled from the spec (§4.1): consecutive points of a traced boundary
loop are equal or 8-adjacent. -/
def ConformingAdj (oracle : List Point → List (List Point)) : Prop :=
  ∀ s, ∀ c ∈ oracle s, List.Chain' adjacentOrEq c

/-- Length of the pending-chunk queue (0 when exhausted); the inner
component of the termination measure of a pass. -/
def queueLen (s : GenState) : Nat :=
  match s.contours with
  | none => 0
  | some q => q.length

/-- Invariant of a generation pass (for a conforming oracle): the unvisited
working set stays inside the input set, and every pending chunk has exactly
`polygon_length` points, all inside the input set. -/
def PassInv (pts : List Point) (L : Nat) (s : GenState) : Prop :=
  (∀ x ∈ s.unvisited, x ∈ pts) ∧
  (∀ q, s.contours = some q → ∀ c ∈ q, c.length = L ∧ ∀ x ∈ c, x ∈ pts)

/-- Adjacency invariant of a generation pass: every pending chunk is an
equal-or-8-adjacent chain. -/
def PassInvAdj (s : GenState) : Prop :=
  ∀ q, s.contours = some q → ∀ c ∈ q, List.Chain' adjacentOrEq c

/-- Concrete points for counterexamples. -/
def cexA : Point := ⟨0, 0⟩

def cexB : Point := ⟨1, 0⟩

/-- A predicate satisfied by `cexA` only. -/
def cexPredA : Point → Bool := fun q => decide (q = cexA)

def pt0 : Point := ⟨0, 0⟩

def pt1 : Point := ⟨1, 0⟩

def pt2 : Point := ⟨2, 0⟩

/-- A 3-pixel horizontal line. -/
def linePts : List Point := [pt0, pt1, pt2]

/-- Modelled from the spec (§4.1): a contour extractor conforming to the
spec contract (its loop lies inside the queried set) that traces the 3-pixel
line out and back, visiting the middle pixel twice — the documented
`CHAIN_APPROX_NONE` boundary trace of a one-pixel-wide line. -/
def lineOracle : List Point → List (List Point) :=
  fun s => if s = linePts then [[pt0, pt1, pt2, pt1]] else []

/-- A closed one-pixel-wide ring of 8 pixels around (1,1), listed in trace
order. -/
def ringPts : List Point :=
  [⟨0, 0⟩, ⟨1, 0⟩, ⟨2, 0⟩, ⟨2, 1⟩, ⟨2, 2⟩, ⟨1, 2⟩, ⟨0, 2⟩, ⟨0, 1⟩]

/-- Modelled from the spec (§4.1): a contour extractor returning the single
traced loop of the ring. -/
def ringOracle : List Point → List (List Point) :=
  fun s => if s = ringPts then [ringPts] else []

/-- An oracle returning no contours at all (vacuously conforming). -/
def emptyOracle : List Point → List (List Point) := fun _ => []

/-! ## Theorems -/

theorem chebDist_comm (p q : Point) : chebDist p q = chebDist q p := by
  unfold chebDist
  omega

theorem mem_neighbors_iff (p q : Point) :
    q ∈ p.neighbors ↔ chebDist p q = 1 := by
  obtain ⟨px, py⟩ := p
  obtain ⟨qx, qy⟩ := q
  simp only [Point.neighbors, chebDist, List.mem_cons, List.not_mem_nil, or_false,
    Point.mk.injEq]
  omega

theorem mem_neighbors_symm {p q : Point} (h : q ∈ p.neighbors) : p ∈ q.neighbors := by
  rw [mem_neighbors_iff] at h ⊢
  rw [chebDist_comm]
  exact h

theorem not_self_mem_neighbors (p : Point) : p ∉ p.neighbors := by
  rw [mem_neighbors_iff]
  unfold chebDist
  omega

theorem adjacentOrEq_of_mem_neighbors {a b : Point} (h : b ∈ a.neighbors) :
    adjacentOrEq a b := Or.inr ((mem_neighbors_iff a b).mp h)

theorem chunksGo_sound (maxLength : Nat) (hL : 1 ≤ maxLength) :
    ∀ fuel l, l.length ≤ fuel →
      ∀ c ∈ chunksGo maxLength fuel l, ∃ i, c = (l.drop i).take maxLength := by
  intro fuel
  induction fuel with
  | zero =>
    intro l hl c hc
    simp [chunksGo] at hc
  | succ n ih =>
    intro l hl c hc
    match l with
    | [] => simp [chunksGo] at hc
    | a :: t =>
      simp only [chunksGo, List.mem_cons] at hc
      rcases hc with hc | hc
      · exact ⟨0, by simpa using hc⟩
      · have hlen : (List.drop maxLength (a :: t)).length ≤ n := by
          simp only [List.length_drop, List.length_cons] at *
          omega
        obtain ⟨i, hi⟩ := ih _ hlen c hc
        exact ⟨maxLength + i, by simpa [List.drop_drop] using hi⟩

theorem chunksOf_sound (maxLength : Nat) (hL : 1 ≤ maxLength) (l : List Point) :
    ∀ c ∈ chunksOf maxLength l, ∃ i, c = (l.drop i).take maxLength :=
  chunksGo_sound maxLength hL l.length l le_rfl

theorem chunksOf_subset (maxLength : Nat) (hL : 1 ≤ maxLength) (l : List Point)
    (c : List Point) (hc : c ∈ chunksOf maxLength l) : ∀ x ∈ c, x ∈ l := by
  obtain ⟨i, rfl⟩ := chunksOf_sound maxLength hL l c hc
  intro x hx
  exact List.mem_of_mem_drop (List.mem_of_mem_take hx)

theorem chunksGo_flatten (maxLength : Nat) (hL : 1 ≤ maxLength) :
    ∀ fuel l, l.length ≤ fuel → (chunksGo maxLength fuel l).flatten = l := by
  intro fuel
  induction fuel with
  | zero =>
    intro l hl
    have : l = [] := List.length_eq_zero.mp (Nat.le_zero.mp hl)
    simp [this, chunksGo]
  | succ n ih =>
    intro l hl
    match l with
    | [] => simp [chunksGo]
    | a :: t =>
      have hlen : (List.drop maxLength (a :: t)).length ≤ n := by
        simp only [List.length_drop, List.length_cons] at *
        omega
      simp [chunksGo, ih _ hlen]

theorem chunksOf_flatten (maxLength : Nat) (hL : 1 ≤ maxLength) (l : List Point) :
    (chunksOf maxLength l).flatten = l :=
  chunksGo_flatten maxLength hL l.length l le_rfl

/-!
## `find_path`: bounded breadth-first pathfinding

`find_path(start, points, max_length, predicate)` in the source keeps a FIFO
queue of partial paths and a visited set.  Here partial paths are stored
reversed (head of the list = last point of the path, so the Python
`current_path[-1]` is the list head and `current_path.append` is `::`); the
final answer is reversed back before being returned.
-/

theorem expandStep_visited_mono (points : List Point) (pred : Point → Bool)
    (maxLen : Nat) (path : List Point) :
    ∀ ns visited acc,
      ∀ v ∈ visited, v ∈ (expandStep points pred maxLen path ns visited acc).2.1 := by
  intro ns
  induction ns with
  | nil => intro visited acc v hv; simpa [expandStep] using hv
  | cons n ns ih =>
    intro visited acc v hv
    simp only [expandStep]
    split_ifs with h1 h2 h3 h4
    · exact ih visited acc v hv
    · simpa using hv
    · exact ih visited acc v hv
    · exact ih (visited ++ [n]) (acc ++ [n :: path]) v (by simp [hv])
    · exact ih visited acc v hv

theorem expandStep_found (points : List Point) (pred : Point → Bool)
    (maxLen : Nat) (path : List Point) :
    ∀ ns visited acc f,
      (expandStep points pred maxLen path ns visited acc).1 = some f →
      ∃ n, n ∈ ns ∧ f = n :: path ∧ n ∈ points ∧ n ∉ visited ∧ pred n = true := by
  intro ns
  induction ns with
  | nil => intro visited acc f hf; simp [expandStep] at hf
  | cons n ns ih =>
    intro visited acc f hf
    simp only [expandStep] at hf
    split_ifs at hf with h1 h2 h3 h4
    · obtain ⟨m, hm, rest⟩ := ih visited acc f hf
      exact ⟨m, List.mem_cons_of_mem _ hm, rest⟩
    · refine ⟨n, List.mem_cons_self _ _, ?_, h1, h2, h3⟩
      simpa using hf.symm
    · obtain ⟨m, hm, rest⟩ := ih visited acc f hf
      exact ⟨m, List.mem_cons_of_mem _ hm, rest⟩
    · obtain ⟨m, hm, hfe, hmp, hmv, hmpred⟩ := ih (visited ++ [n]) (acc ++ [n :: path]) f hf
      exact ⟨m, List.mem_cons_of_mem _ hm, hfe, hmp, fun hc => hmv (by simp [hc]), hmpred⟩
    · obtain ⟨m, hm, rest⟩ := ih visited acc f hf
      exact ⟨m, List.mem_cons_of_mem _ hm, rest⟩

theorem expandStep_acc (points : List Point) (pred : Point → Bool)
    (maxLen : Nat) (path : List Point) :
    ∀ ns visited acc q,
      q ∈ (expandStep points pred maxLen path ns visited acc).2.2 →
      q ∈ acc ∨ ∃ n, n ∈ ns ∧ q = n :: path ∧ n ∈ points ∧ n ∉ visited ∧
        n ∈ (expandStep points pred maxLen path ns visited acc).2.1 ∧
        path.length ≠ maxLen - 1 := by
  intro ns
  induction ns with
  | nil => intro visited acc q hq; simp [expandStep] at hq ⊢; exact hq
  | cons n ns ih =>
    intro visited acc q hq
    simp only [expandStep] at hq ⊢
    split_ifs at hq ⊢ with h1 h2 h3 h4
    · rcases ih visited acc q hq with h | ⟨m, hm, rest⟩
      · exact Or.inl h
      · exact Or.inr ⟨m, List.mem_cons_of_mem _ hm, rest⟩
    · exact Or.inl (by simpa using hq)
    · rcases ih visited acc q hq with h | ⟨m, hm, rest⟩
      · exact Or.inl h
      · exact Or.inr ⟨m, List.mem_cons_of_mem _ hm, rest⟩
    · rcases ih (visited ++ [n]) (acc ++ [n :: path]) q hq with h | ⟨m, hm, hqe, hmp, hmv, hmv2, hml⟩
      · rcases List.mem_append.mp h with h | h
        · exact Or.inl h
        · refine Or.inr ⟨n, List.mem_cons_self _ _, by simpa using h, h1, h2, ?_, h4⟩
          exact expandStep_visited_mono points pred maxLen path ns (visited ++ [n])
            (acc ++ [n :: path]) n (by simp)
      · exact Or.inr ⟨m, List.mem_cons_of_mem _ hm, hqe, hmp,
          fun hc => hmv (by simp [hc]), hmv2, hml⟩
    · rcases ih visited acc q hq with h | ⟨m, hm, rest⟩
      · exact Or.inl h
      · exact Or.inr ⟨m, List.mem_cons_of_mem _ hm, rest⟩

theorem bfsLoop_some (start : Point) (points : List Point) (pred : Point → Bool)
    (maxLen : Nat) (hml : 2 ≤ maxLen) :
    ∀ fuel queue visited res,
      (∀ p ∈ queue, PathInv start points maxLen visited p) →
      bfsLoop points pred maxLen fuel queue visited = some res →
      ∃ n path v, res = (n :: path).reverse ∧
        PathInv start points maxLen v path ∧
        n ∈ (path.headD ⟨0, 0⟩).neighbors ∧
        n ∉ v ∧ n ∈ points ∧ pred n = true := by
  intro fuel
  induction fuel with
  | zero => intro queue visited res _ h; simp [bfsLoop] at h
  | succ m ih =>
    intro queue visited res hinv h
    match queue with
    | [] => simp [bfsLoop] at h
    | path :: rest =>
      have hpinv := hinv path (List.mem_cons_self _ _)
      rw [bfsLoop] at h
      rcases hexp : expandStep points pred maxLen path (path.headD ⟨0, 0⟩).neighbors visited []
        with ⟨fo, v2, np⟩
      rw [hexp] at h
      match fo, h with
      | some found, h =>
        simp only [Option.some.injEq] at h
        obtain ⟨n, hn_mem, hfe, hnp, hnv, hnpred⟩ :=
          expandStep_found points pred maxLen path _ visited [] found (by rw [hexp])
        exact ⟨n, path, visited, by rw [← h, hfe], hpinv, hn_mem, hnv, hnp, hnpred⟩
      | none, h =>
        refine ih (rest ++ np) v2 res ?_ h
        intro p hp
        rcases List.mem_append.mp hp with hp | hp
        · obtain ⟨h1, h2, h3, h4, h5, h6⟩ := hinv p (List.mem_cons_of_mem _ hp)
          refine ⟨h1, h2, h3, h4, h5, fun x hx => ?_⟩
          obtain ⟨hxv, hxp⟩ := h6 x hx
          refine ⟨?_, hxp⟩
          have := expandStep_visited_mono points pred maxLen path
            (path.headD ⟨0, 0⟩).neighbors visited [] x hxv
          rw [hexp] at this
          exact this
        · have hacc := expandStep_acc points pred maxLen path
            (path.headD ⟨0, 0⟩).neighbors visited [] p (by rw [hexp]; exact hp)
          rw [hexp] at hacc
          rcases hacc with h0 | ⟨n, hn_mem, rfl, hnp, hnv, hnv2, hnl⟩
          · simp at h0
          · obtain ⟨h1, h2, h3, h4, h5, h6⟩ := hpinv
            have hndl : n ∉ path.dropLast := fun hc => hnv (h6 n hc).1
            refine ⟨List.cons_ne_nil _ _, ?_, ?_, ?_, ?_, ?_⟩
            · rw [List.getLast?_cons, h2]
              simp
            · simp only [List.length_cons]
              omega
            · match path, h1 with
              | ph :: pt, _ =>
                exact List.Chain'.cons (by simpa using hn_mem) h4
            · rw [List.dropLast_cons_of_ne_nil h1]
              exact List.Nodup.cons hndl h5
            · intro x hx
              rw [List.dropLast_cons_of_ne_nil h1] at hx
              rcases List.mem_cons.mp hx with rfl | hx
              · exact ⟨hnv2, hnp⟩
              · obtain ⟨hxv, hxp⟩ := h6 x hx
                refine ⟨?_, hxp⟩
                have := expandStep_visited_mono points pred maxLen path
                  (path.headD ⟨0, 0⟩).neighbors visited [] x hxv
                rw [hexp] at this
                exact this

/-- Everything a returned `find_path` path satisfies: nonempty, starts at
`start`, at most `max_length` points, ends on a point satisfying the
predicate, consecutive points 8-adjacent, all points after the start inside
`points`, and no coordinate other than `start` occurs twice (the start,
never marked visited by the source, can occur a second time).  For
`max_length ≥ 2` the result has at least two points. -/
theorem findPath_some_spec (start : Point) (points : List Point) (maxLen : Nat)
    (pred : Point → Bool) (res : List Point) (hL : 1 ≤ maxLen)
    (h : findPath start points maxLen pred = some res) :
    res ≠ [] ∧ res.head? = some start ∧ res.length ≤ maxLen ∧
    pred (res.getLastD start) = true ∧
    List.Chain' (fun a b => b ∈ a.neighbors) res ∧
    (∀ x ∈ res.drop 1, x ∈ points) ∧
    (∀ q, q ≠ start → res.count q ≤ 1) ∧ res.count start ≤ 2 ∧
    (2 ≤ maxLen → 2 ≤ res.length) := by
  by_cases hm : maxLen = 1
  · subst hm
    rw [findPath, if_pos rfl] at h
    by_cases hp : pred start = true
    · rw [if_pos hp] at h
      simp only [Option.some.injEq] at h
      subst h
      refine ⟨by simp, by simp, by simp, by simpa using hp, by simp, by simp, ?_, by simp,
        by omega⟩
      intro q hq
      exact (List.count_le_length q [start]).trans (by simp)
    · rw [if_neg hp] at h
      exact absurd h (by simp)
  · have hml : 2 ≤ maxLen := by omega
    rw [findPath, if_neg hm] at h
    have hinv0 : ∀ p ∈ [[start]], PathInv start points maxLen [] p := by
      intro p hp
      simp only [List.mem_singleton] at hp
      subst hp
      refine ⟨by simp, by simp, ?_, by simp, by simp, by simp⟩
      simp only [List.length_singleton]
      omega
    obtain ⟨n, path, v, hres, ⟨hne, hlast, hlen, hchain, hnodup, hsub⟩, hn_mem, hnv, hnp, hnpred⟩ :=
      bfsLoop_some start points pred maxLen hml (points.length + 1) [[start]] [] res hinv0 h
    obtain ⟨dl, rfl⟩ := List.getLast?_eq_some_iff.mp hlast
    have hdl : (dl ++ [start]).dropLast = dl := List.dropLast_concat
    rw [hdl] at hnodup hsub
    have hres2 : res = (start :: dl.reverse) ++ [n] := by
      rw [hres]
      simp
    have hcount : ∀ q : Point, res.count q =
        (if start = q then 1 else 0) + dl.count q + (if n = q then 1 else 0) := by
      intro q
      rw [hres2]
      simp [List.count_cons, List.count_append, List.count_singleton]
      omega
    have hndl : n ∉ dl := fun hc => hnv (hsub n hc).1
    have hplen : (dl ++ [start]).length = dl.length + 1 := by simp
    refine ⟨by rw [hres2]; simp, by rw [hres2]; simp, ?_, ?_, ?_, ?_, ?_, ?_, ?_⟩
    · rw [hres2]
      simp only [List.length_append, List.length_cons, List.length_reverse,
        List.length_singleton, List.length_nil] at *
      omega
    · rw [hres2, List.getLastD_eq_getLast?, List.getLast?_concat]
      simpa using hnpred
    · have hchain2 : List.Chain' (fun a b => a ∈ b.neighbors) (n :: (dl ++ [start])) := by
        match dl with
        | [] => exact List.chain'_pair.mpr (by simpa using hn_mem)
        | d :: ds =>
          refine List.Chain'.cons ?_ hchain
          simpa using hn_mem
      rw [hres]
      exact List.chain'_reverse.mpr hchain2
    · intro x hx
      rw [hres2] at hx
      simp only [List.cons_append, List.drop_succ_cons, List.drop_zero, List.mem_append,
        List.mem_reverse, List.mem_singleton] at hx
      rcases hx with hx | rfl
      · exact (hsub x hx).2
      · exact hnp
    · intro q hq
      rw [hcount q]
      have h1 : dl.count q ≤ 1 := List.nodup_iff_count_le_one.mp hnodup q
      rw [if_neg (fun hc : start = q => hq hc.symm)]
      by_cases hb : n = q
      · rw [if_pos hb]
        have h2 : dl.count q = 0 := List.count_eq_zero.mpr (hb ▸ hndl)
        omega
      · rw [if_neg hb]
        omega
    · rw [hcount start, if_pos rfl]
      by_cases hs : start ∈ dl
      · have hns : ¬ (n = start) := fun hc => hnv (by rw [hc]; exact (hsub start hs).1)
        have h1 : dl.count start ≤ 1 := List.nodup_iff_count_le_one.mp hnodup start
        rw [if_neg hns]
        omega
      · have h0 : dl.count start = 0 := List.count_eq_zero.mpr hs
        rw [h0]
        split_ifs <;> omega
    · intro _
      rw [hres2]
      simp only [List.length_append, List.length_cons, List.length_reverse]
      omega

theorem getLast?_eq_getLastD (l : List Point) (d : Point) (h : l ≠ []) :
    l.getLast? = some (l.getLastD d) := by
  rw [List.getLastD_eq_getLast?, List.getLast?_eq_getLast l h]
  rfl

theorem getLastD_mem_of_ne_nil (l : List Point) (d : Point) (h : l ≠ []) :
    l.getLastD d ∈ l := by
  rw [List.getLastD_eq_getLast?, List.getLast?_eq_getLast l h]
  exact List.getLast_mem h

theorem flvnGo_spec (unvisited points vc : List Point) :
    ∀ ns best minC n, flvnGo unvisited points vc ns best minC = some n →
      best = some n ∨ (n ∈ ns ∧ n ∈ points) := by
  intro ns
  induction ns with
  | nil => intro best minC n h; exact Or.inl (by simpa [flvnGo] using h)
  | cons m ns ih =>
    intro best minC n h
    rw [flvnGo] at h
    split_ifs at h with h1 h2 h3
    · simp only [Option.some.injEq] at h
      subst h
      exact Or.inr ⟨List.mem_cons_self _ _, h1⟩
    · rcases ih (some m) (vc.count m) n h with hb | ⟨hm, hp⟩
      · simp only [Option.some.injEq] at hb
        exact Or.inr ⟨by simp [hb], hb ▸ h1⟩
      · exact Or.inr ⟨List.mem_cons_of_mem _ hm, hp⟩
    · rcases ih best minC n h with hb | ⟨hm, hp⟩
      · exact Or.inl hb
      · exact Or.inr ⟨List.mem_cons_of_mem _ hm, hp⟩
    · rcases ih best minC n h with hb | ⟨hm, hp⟩
      · exact Or.inl hb
      · exact Or.inr ⟨List.mem_cons_of_mem _ hm, hp⟩

theorem findLeastVisitedNeighbor_spec (unvisited points vc : List Point) (p n : Point)
    (h : findLeastVisitedNeighbor unvisited points vc p = some n) :
    n ∈ p.neighbors ∧ n ∈ points := by
  rcases flvnGo_spec unvisited points vc p.neighbors none (maxVisit vc + 1) n h with hb | hr
  · exact absurd hb (by simp)
  · exact ⟨hr.1, hr.2⟩

/-- Turn the exact-neighbor chain of a `find_path` result into the
equal-or-adjacent chain used for strokes. -/
theorem chain_adj_of_neighbors {l : List Point}
    (h : List.Chain' (fun a b => b ∈ a.neighbors) l) :
    List.Chain' adjacentOrEq l :=
  h.imp fun _ _ hb => adjacentOrEq_of_mem_neighbors hb

/-- The first extension loop of `_next_random_polygon` keeps the stroke
nonempty, within the length budget, preserves its members, only adds members
of the full point set, and preserves the equal-or-adjacent chain. -/
theorem growPaths_spec (pts unvisited : List Point) (L : Nat) :
    ∀ fuel points vc, points ≠ [] → points.length ≤ L →
      (growPaths pts unvisited L fuel points vc).1 ≠ [] ∧
      (growPaths pts unvisited L fuel points vc).1.length ≤ L ∧
      (∀ x ∈ points, x ∈ (growPaths pts unvisited L fuel points vc).1) ∧
      (∀ x ∈ (growPaths pts unvisited L fuel points vc).1, x ∈ points ∨ x ∈ pts) ∧
      (List.Chain' adjacentOrEq points →
        List.Chain' adjacentOrEq (growPaths pts unvisited L fuel points vc).1) := by
  intro fuel
  induction fuel with
  | zero =>
    intro points vc hne hlen
    exact ⟨hne, hlen, fun x hx => hx, fun x hx => Or.inl hx, fun hc => hc⟩
  | succ m ih =>
    intro points vc hne hlen
    rw [growPaths]
    by_cases hlt : points.length < L
    · rw [if_pos hlt]
      have hbudget : 1 ≤ L - points.length := by omega
      cases ht : findPath (points.getLastD ⟨0, 0⟩) pts (L - points.length)
          (fun q => decide (q ∈ unvisited) && !(decide (q ∈ vc))) with
      | some tail =>
        simp only
        obtain ⟨htne, hthead, htlen, _, htchain, htdrop, _⟩ :=
          findPath_some_spec _ pts (L - points.length) _ tail hbudget ht
        have htlen1 : 1 ≤ tail.length := List.length_pos.mpr htne
        have hlen2 : (points ++ tail.drop 1).length ≤ L := by
          simp only [List.length_append, List.length_drop]
          omega
        have hne2 : points ++ tail.drop 1 ≠ [] := by
          simp [hne]
        obtain ⟨g1, g2, g3, g4, g5⟩ := ih (points ++ tail.drop 1) (vc ++ tail.drop 1) hne2 hlen2
        refine ⟨g1, g2, ?_, ?_, ?_⟩
        · intro x hx
          exact g3 x (List.mem_append_left _ hx)
        · intro x hx
          rcases g4 x hx with hx2 | hx2
          · rcases List.mem_append.mp hx2 with hx3 | hx3
            · exact Or.inl hx3
            · exact Or.inr (htdrop x hx3)
          · exact Or.inr hx2
        · intro hc
          refine g5 (List.chain'_append.mpr ⟨hc, ?_, ?_⟩)
          · rw [List.drop_one]
            exact (chain_adj_of_neighbors htchain).tail
          · intro a ha b hb
            rw [getLast?_eq_getLastD points ⟨0, 0⟩ hne] at ha
            simp only [Option.mem_def, Option.some.injEq] at ha
            subst ha
            match tail, hthead with
            | t0 :: t2, hthead =>
              simp only [List.head?_cons, Option.some.injEq] at hthead
              subst hthead
              rw [List.drop_one, List.tail_cons] at hb
              exact (List.chain'_cons'.mp (chain_adj_of_neighbors htchain)).1 b hb
      | none =>
        cases hh : findPath (points.headD ⟨0, 0⟩) pts (L - points.length)
            (fun q => decide (q ∈ unvisited) && !(decide (q ∈ vc))) with
        | some head =>
          simp only
          obtain ⟨hhne, hhhead, hhlen, _, hhchain, hhdrop, _⟩ :=
            findPath_some_spec _ pts (L - points.length) _ head hbudget hh
          have hhlen1 : 1 ≤ head.length := List.length_pos.mpr hhne
          have hplen1 : 1 ≤ points.length := List.length_pos.mpr hne
          have hlen2 : (head.reverse ++ points.drop 1).length ≤ L := by
            simp only [List.length_append, List.length_reverse, List.length_drop]
            omega
          have hne2 : head.reverse ++ points.drop 1 ≠ [] := by
            simp [hhne]
          obtain ⟨g1, g2, g3, g4, g5⟩ :=
            ih (head.reverse ++ points.drop 1) (vc ++ head.drop 1) hne2 hlen2
          match points, hne with
          | ph :: prest, _ =>
            have hhd : head.head? = some ph := by simpa using hhhead
            have hph : ph ∈ head := List.mem_of_mem_head? (by rw [hhd]; rfl)
            refine ⟨g1, g2, ?_, ?_, ?_⟩
            · intro x hx
              rcases List.mem_cons.mp hx with rfl | hx2
              · exact g3 x (List.mem_append_left _ (List.mem_reverse.mpr hph))
              · exact g3 x (List.mem_append_right _ (by simpa using hx2))
            · intro x hx
              rcases g4 x hx with hx2 | hx2
              · rcases List.mem_append.mp hx2 with hx3 | hx3
                · rw [List.mem_reverse] at hx3
                  match head, hhne with
                  | h0 :: h2, _ =>
                    simp only [List.head?_cons, Option.some.injEq] at hhd
                    subst hhd
                    rcases List.mem_cons.mp hx3 with rfl | hx4
                    · exact Or.inl (List.mem_cons_self _ _)
                    · exact Or.inr (hhdrop x (by simpa using hx4))
                · exact Or.inl (List.mem_cons_of_mem _ (by simpa using hx3))
              · exact Or.inr hx2
            · intro hc
              refine g5 (List.chain'_append.mpr ⟨?_, ?_, ?_⟩)
              · refine List.chain'_reverse.mpr ?_
                refine hhchain.imp fun a b hb => ?_
                exact Or.inr ((mem_neighbors_iff b a).mp (mem_neighbors_symm hb))
              · simpa using hc.tail
              · intro a ha b hb
                rw [List.getLast?_reverse, hhd] at ha
                simp only [Option.mem_def, Option.some.injEq] at ha
                subst ha
                simp only [List.drop_succ_cons, List.drop_zero] at hb
                exact (List.chain'_cons'.mp hc).1 b hb
        | none =>
          exact ⟨hne, hlen, fun x hx => hx, fun x hx => Or.inl hx, fun hc => hc⟩
    · rw [if_neg hlt]
      exact ⟨hne, hlen, fun x hx => hx, fun x hx => Or.inl hx, fun hc => hc⟩

/-- The greedy extension loop of `_next_random_polygon` keeps the stroke
nonempty, within the length budget, preserves its members, only adds members
of the full point set, and preserves the equal-or-adjacent chain. -/
theorem growGreedy_spec (pts unvisited : List Point) (L : Nat) :
    ∀ fuel points vc, points ≠ [] → points.length ≤ L →
      (growGreedy pts unvisited L fuel points vc).1 ≠ [] ∧
      (growGreedy pts unvisited L fuel points vc).1.length ≤ L ∧
      (∀ x ∈ points, x ∈ (growGreedy pts unvisited L fuel points vc).1) ∧
      (∀ x ∈ (growGreedy pts unvisited L fuel points vc).1, x ∈ points ∨ x ∈ pts) ∧
      (List.Chain' adjacentOrEq points →
        List.Chain' adjacentOrEq (growGreedy pts unvisited L fuel points vc).1) := by
  intro fuel
  induction fuel with
  | zero =>
    intro points vc hne hlen
    exact ⟨hne, hlen, fun x hx => hx, fun x hx => Or.inl hx, fun hc => hc⟩
  | succ m ih =>
    intro points vc hne hlen
    rw [growGreedy]
    by_cases hlt : points.length < L
    · rw [if_pos hlt]
      cases htn : findLeastVisitedNeighbor unvisited pts vc (points.getLastD ⟨0, 0⟩) with
      | some tn =>
        simp only
        obtain ⟨htn_nb, htn_pts⟩ := findLeastVisitedNeighbor_spec unvisited pts vc _ tn htn
        have hlen2 : (points ++ [tn]).length ≤ L := by
          simp only [List.length_append, List.length_singleton]
          omega
        obtain ⟨g1, g2, g3, g4, g5⟩ := ih (points ++ [tn]) (vc ++ [tn]) (by simp) hlen2
        refine ⟨g1, g2, ?_, ?_, ?_⟩
        · intro x hx
          exact g3 x (List.mem_append_left _ hx)
        · intro x hx
          rcases g4 x hx with hx2 | hx2
          · rcases List.mem_append.mp hx2 with hx3 | hx3
            · exact Or.inl hx3
            · exact Or.inr (by simpa using (List.mem_singleton.mp hx3) ▸ htn_pts)
          · exact Or.inr hx2
        · intro hc
          refine g5 (List.chain'_append.mpr ⟨hc, List.chain'_singleton tn, ?_⟩)
          intro a ha b hb
          rw [getLast?_eq_getLastD points ⟨0, 0⟩ hne] at ha
          simp only [Option.mem_def, Option.some.injEq] at ha
          simp only [List.head?_cons, Option.mem_def, Option.some.injEq] at hb
          subst ha
          subst hb
          exact adjacentOrEq_of_mem_neighbors htn_nb
      | none =>
        cases hhn : findLeastVisitedNeighbor unvisited pts vc (points.headD ⟨0, 0⟩) with
        | some hn =>
          simp only
          obtain ⟨hhn_nb, hhn_pts⟩ := findLeastVisitedNeighbor_spec unvisited pts vc _ hn hhn
          have hlen2 : (hn :: points).length ≤ L := by
            simp only [List.length_cons]
            omega
          obtain ⟨g1, g2, g3, g4, g5⟩ := ih (hn :: points) (vc ++ [hn]) (by simp) hlen2
          refine ⟨g1, g2, ?_, ?_, ?_⟩
          · intro x hx
            exact g3 x (List.mem_cons_of_mem _ hx)
          · intro x hx
            rcases g4 x hx with hx2 | hx2
            · rcases List.mem_cons.mp hx2 with rfl | hx3
              · exact Or.inr hhn_pts
              · exact Or.inl hx3
            · exact Or.inr hx2
          · intro hc
            refine g5 (List.chain'_cons'.mpr ⟨?_, hc⟩)
            intro y hy
            match points, hne with
            | p0 :: prest, _ =>
              simp only [List.head?_cons, Option.mem_def, Option.some.injEq] at hy
              have hmem : hn ∈ p0.neighbors := by simpa using hhn_nb
              subst hy
              refine Or.inr ?_
              rw [chebDist_comm]
              exact (mem_neighbors_iff p0 hn).mp hmem
        | none =>
          exact ⟨hne, hlen, fun x hx => hx, fun x hx => Or.inl hx, fun hc => hc⟩
    · rw [if_neg hlt]
      exact ⟨hne, hlen, fun x hx => hx, fun x hx => Or.inl hx, fun hc => hc⟩

/-- `_next_random_polygon` on a non-empty unvisited set: the stroke has
exactly `polygon_length` points, contains the seed, contains only the seed
and members of the full point set, and consecutive points are equal or
8-adjacent. -/
theorem nextRandomPolygon_spec (pts : List Point) (L : Nat) (hL : 1 ≤ L)
    (seed : Point) (rest : List Point) :
    (nextRandomPolygon pts L (seed :: rest)).length = L ∧
    seed ∈ nextRandomPolygon pts L (seed :: rest) ∧
    (∀ x ∈ nextRandomPolygon pts L (seed :: rest), x = seed ∨ x ∈ pts) ∧
    List.Chain' adjacentOrEq (nextRandomPolygon pts L (seed :: rest)) := by
  obtain ⟨p1, p2, p3, p4, p5⟩ :=
    growPaths_spec pts (seed :: rest) L (L + 1) [seed] [seed] (by simp)
      (by simpa using hL)
  obtain ⟨q1, q2, q3, q4, q5⟩ :=
    growGreedy_spec pts (seed :: rest) L (L + 1)
      (growPaths pts (seed :: rest) L (L + 1) [seed] [seed]).1
      (growPaths pts (seed :: rest) L (L + 1) [seed] [seed]).2 p1 p2
  have hmem2 : ∀ x ∈ (growGreedy pts (seed :: rest) L (L + 1)
      (growPaths pts (seed :: rest) L (L + 1) [seed] [seed]).1
      (growPaths pts (seed :: rest) L (L + 1) [seed] [seed]).2).1, x = seed ∨ x ∈ pts := by
    intro x hx
    rcases q4 x hx with hx2 | hx2
    · rcases p4 x hx2 with hx3 | hx3
      · exact Or.inl (List.mem_singleton.mp hx3)
      · exact Or.inr hx3
    · exact Or.inr hx2
  simp only [nextRandomPolygon]
  refine ⟨?_, ?_, ?_, ?_⟩
  · simp only [List.length_append, List.length_replicate]
    omega
  · exact List.mem_append_left _ (q3 seed (p3 seed (List.mem_singleton_self seed)))
  · intro x hx
    rcases List.mem_append.mp hx with hx1 | hx1
    · exact hmem2 x hx1
    · have hx2 := List.eq_of_mem_replicate hx1
      subst hx2
      exact hmem2 _ (getLastD_mem_of_ne_nil _ seed q1)
  · have hchain2 : List.Chain' adjacentOrEq (growGreedy pts (seed :: rest) L (L + 1)
        (growPaths pts (seed :: rest) L (L + 1) [seed] [seed]).1
        (growPaths pts (seed :: rest) L (L + 1) [seed] [seed]).2).1 :=
      q5 (p5 (List.chain'_singleton seed))
    refine List.chain'_append.mpr ⟨hchain2, List.chain'_replicate_of_rel _ (Or.inl rfl), ?_⟩
    intro a ha b hb
    rw [getLast?_eq_getLastD _ seed q1] at ha
    simp only [Option.mem_def, Option.some.injEq] at ha
    rw [List.head?_replicate] at hb
    split_ifs at hb with hz
    · exact absurd hb (by simp)
    · simp only [Option.mem_def, Option.some.injEq] at hb
      subst ha
      subst hb
      exact Or.inl rfl

theorem length_filter_lt (f : Point → Bool) :
    ∀ (l : List Point) (a : Point), a ∈ l → f a = false →
      (l.filter f).length < l.length := by
  intro l
  induction l with
  | nil => simp
  | cons b t ih =>
    intro a ha hfa
    rw [List.filter_cons]
    rcases List.mem_cons.mp ha with rfl | ha2
    · rw [hfa]
      simp only [cond_false, List.length_cons]
      exact Nat.lt_succ_of_le (List.length_filter_le _ _)
    · by_cases hb : f b
      · rw [hb]
        simpa using ih a ha2 hfa
      · rw [Bool.eq_false_iff.mpr hb]
        simp only [cond_false, List.length_cons]
        exact Nat.lt_succ_of_le (Nat.le_of_lt (ih a ha2 hfa))

/-- Every chunk delivered by the refill step of `_next_contour` has exactly
`polygon_length` points, lies inside one of the oracle's loops from the
queried set, and inherits the loop's adjacency chain. -/
theorem refillChunks_mem (oracle : List Point → List (List Point)) (L : Nat)
    (hL : 1 ≤ L) (u : List Point) (c : List Point)
    (hc : c ∈ refillChunks oracle L u) :
    c.length = L ∧ ∃ loop, loop ∈ oracle u ∧ (∀ x ∈ c, x ∈ loop) ∧
      (List.Chain' adjacentOrEq loop → List.Chain' adjacentOrEq c) := by
  rw [refillChunks] at hc
  rw [List.mem_flatten] at hc
  obtain ⟨chs, hchs, hin⟩ := hc
  rw [List.mem_map] at hchs
  obtain ⟨loop, hloop, rfl⟩ := hchs
  rw [List.mem_filter] at hin
  obtain ⟨hmem, hlen⟩ := hin
  refine ⟨by simpa using hlen, loop, hloop, chunksOf_subset L hL loop c hmem, ?_⟩
  intro hchain
  obtain ⟨i, rfl⟩ := chunksOf_sound L hL loop c hmem
  exact (hchain.drop i).take L

theorem nextContour_unvisited (oracle : List Point → List (List Point)) (L : Nat)
    (s : GenState) : ((nextContour oracle L s).2).unvisited = s.unvisited := by
  rw [nextContour]
  match s with
  | ⟨u, none⟩ => rfl
  | ⟨u, some []⟩ =>
    simp only
    match refillChunks oracle L u with
    | [] => rfl
    | c :: cs => rfl
  | ⟨u, some (c :: cs)⟩ => rfl

/-- The four outcomes of `_next_contour`: contours already exhausted; refill
finds nothing (exhausting them); refill pops a fresh chunk; a pending chunk
is popped. -/
theorem nextContour_cases (oracle : List Point → List (List Point)) (L : Nat)
    (s : GenState) :
    (s.contours = none ∧ nextContour oracle L s = (none, s)) ∨
    (s.contours = some [] ∧ refillChunks oracle L s.unvisited = [] ∧
      nextContour oracle L s = (none, { s with contours := none })) ∨
    (∃ c cs, s.contours = some [] ∧ refillChunks oracle L s.unvisited = c :: cs ∧
      nextContour oracle L s =
        ((c :: cs).getLast?, { s with contours := some (c :: cs).dropLast })) ∨
    (∃ c cs, s.contours = some (c :: cs) ∧
      nextContour oracle L s =
        ((c :: cs).getLast?, { s with contours := some (c :: cs).dropLast })) := by
  match s with
  | ⟨u, none⟩ => exact Or.inl ⟨rfl, rfl⟩
  | ⟨u, some []⟩ =>
    rcases hr : refillChunks oracle L u with _ | ⟨c, cs⟩
    · refine Or.inr (Or.inl ⟨rfl, rfl, ?_⟩)
      rw [nextContour]
      simp only [hr]
    · refine Or.inr (Or.inr (Or.inl ⟨c, cs, rfl, rfl, ?_⟩))
      rw [nextContour]
      simp only [hr]
  | ⟨u, some (c :: cs)⟩ => exact Or.inr (Or.inr (Or.inr ⟨c, cs, rfl, rfl⟩))

/-- When the unvisited set is non-empty, `__next__` emits a stroke: either a
popped contour chunk, or the fallback stroke; the new state keeps the
contour queue computed by `_next_contour` and removes the emitted points
from `unvisited`. -/
theorem genNext_eq (oracle : List Point → List (List Point)) (pts : List Point)
    (L : Nat) (s : GenState) (a : Point) (rest : List Point)
    (hu : s.unvisited = a :: rest) :
    ∃ p, genNext oracle pts L s =
      some (p, ⟨s.unvisited.filter (fun x => decide (x ∉ p)),
        ((nextContour oracle L s).2).contours⟩) ∧
      ((nextContour oracle L s).1 = some p ∨
       ((nextContour oracle L s).1 = none ∧ p = nextRandomPolygon pts L s.unvisited)) := by
  match s, hu with
  | ⟨_, co⟩, rfl =>
    rw [genNext]
    simp only
    cases hcs : (nextContour oracle L ⟨a :: rest, co⟩).1 with
    | some p =>
      refine ⟨p, ?_, Or.inl rfl⟩
      simp only [nextContour_unvisited]
    | none =>
      refine ⟨nextRandomPolygon pts L (a :: rest), ?_, Or.inr ⟨rfl, rfl⟩⟩
      simp only [nextContour_unvisited]

theorem genNext_none_iff (oracle : List Point → List (List Point)) (pts : List Point)
    (L : Nat) (s : GenState) :
    genNext oracle pts L s = none ↔ s.unvisited = [] := by
  constructor
  · intro h
    cases hu : s.unvisited with
    | nil => rfl
    | cons a rest =>
      obtain ⟨p, hp, _⟩ := genNext_eq oracle pts L s a rest hu
      rw [h] at hp
      exact absurd hp (by simp)
  · intro h
    rw [genNext]
    match s, h with
    | ⟨_, co⟩, rfl => rfl

/-- One emitted stroke of a pass (conforming oracle, `polygon_length ≥ 1`):
exactly `L` points, all inside the input set, equal-or-adjacent consecutive
pairs; both invariants are preserved and the new unvisited set is the old one
with the stroke's points removed. -/
theorem genNext_spec (oracle : List Point → List (List Point)) (pts : List Point)
    (L : Nat) (hL : 1 ≤ L) (hC : Conforming oracle) (hCA : ConformingAdj oracle)
    (s : GenState) (p : List Point) (s' : GenState)
    (hInv : PassInv pts L s) (hIA : PassInvAdj s)
    (h : genNext oracle pts L s = some (p, s')) :
    p.length = L ∧ (∀ x ∈ p, x ∈ pts) ∧ List.Chain' adjacentOrEq p ∧
    PassInv pts L s' ∧ PassInvAdj s' ∧
    s'.unvisited = s.unvisited.filter (fun x => decide (x ∉ p)) := by
  cases hu : s.unvisited with
  | nil =>
    rw [(genNext_none_iff oracle pts L s).mpr hu] at h
    exact absurd h (by simp)
  | cons a rest =>
    obtain ⟨p2, hp2, hcase⟩ := genNext_eq oracle pts L s a rest hu
    rw [h] at hp2
    simp only [Option.some.injEq, Prod.mk.injEq] at hp2
    obtain ⟨rfl, rfl⟩ := hp2
    have hufilter : ∀ x ∈ s.unvisited.filter (fun x => decide (x ∉ p)), x ∈ pts := by
      intro x hx
      exact hInv.1 x (List.mem_of_mem_filter hx)
    have hfall : p = nextRandomPolygon pts L s.unvisited →
        p.length = L ∧ (∀ x ∈ p, x ∈ pts) ∧ List.Chain' adjacentOrEq p := by
      intro hp
      obtain ⟨f1, f2, f3, f4⟩ := nextRandomPolygon_spec pts L hL a rest
      rw [hu] at hp
      subst hp
      refine ⟨f1, fun x hx => ?_, f4⟩
      rcases f3 x hx with rfl | hx2
      · exact hInv.1 x (by rw [hu]; exact List.mem_cons_self _ _)
      · exact hx2
    rcases nextContour_cases oracle L s with ⟨hco, heq⟩ | ⟨hco, hr, heq⟩ |
      ⟨c, cs, hco, hr, heq⟩ | ⟨c, cs, hco, heq⟩
    · rcases hcase with hc1 | ⟨_, hp⟩
      · rw [heq] at hc1
        exact absurd hc1 (by simp)
      · obtain ⟨f1, f2, f3⟩ := hfall hp
        rw [heq]
        exact ⟨f1, f2, f3, ⟨hufilter, by rw [hco]; simp⟩, by rw [hco]; simp [PassInvAdj], by rw [hu]⟩
    · rcases hcase with hc1 | ⟨_, hp⟩
      · rw [heq] at hc1
        exact absurd hc1 (by simp)
      · obtain ⟨f1, f2, f3⟩ := hfall hp
        rw [heq]
        exact ⟨f1, f2, f3, ⟨hufilter, by simp⟩, by simp [PassInvAdj], by rw [hu]⟩
    · have hc1 : (nextContour oracle L s).1 = (c :: cs).getLast? := by rw [heq]
      have hp : p = (c :: cs).getLast (by simp) := by
        rcases hcase with hx | ⟨hx, _⟩
        · rw [hc1, List.getLast?_eq_getLast (c :: cs) (by simp)] at hx
          exact (Option.some.injEq _ _ ▸ hx).symm
        · rw [hc1, List.getLast?_eq_getLast (c :: cs) (by simp)] at hx
          exact absurd hx (by simp)
      have hmem : p ∈ refillChunks oracle L s.unvisited := by
        rw [hr, hp]
        exact List.getLast_mem _
      obtain ⟨hlen, loop, hloop, hsub, hch⟩ :=
        refillChunks_mem oracle L hL s.unvisited p hmem
      have hqmem : ∀ c2 ∈ (c :: cs).dropLast,
          c2.length = L ∧ (∀ x ∈ c2, x ∈ pts) ∧ List.Chain' adjacentOrEq c2 := by
        intro c2 hc2
        have hmem2 : c2 ∈ refillChunks oracle L s.unvisited := by
          rw [hr]
          exact List.mem_of_mem_dropLast hc2
        obtain ⟨hlen2, loop, hloop, hsub2, hch2⟩ :=
          refillChunks_mem oracle L hL s.unvisited c2 hmem2
        exact ⟨hlen2, fun x hx => hInv.1 x (hC _ loop hloop x (hsub2 x hx)),
          hch2 (hCA _ loop hloop)⟩
      rw [heq]
      refine ⟨hlen, fun x hx => hInv.1 x (hC _ loop hloop x (hsub x hx)),
        hch (hCA _ loop hloop), ⟨hufilter, ?_⟩, ?_, by rw [hu]⟩
      · intro q2 hq2 c2 hc2
        simp only [Option.some.injEq] at hq2
        subst hq2
        exact ⟨(hqmem c2 hc2).1, (hqmem c2 hc2).2.1⟩
      · intro q2 hq2 c2 hc2
        simp only [Option.some.injEq] at hq2
        subst hq2
        exact (hqmem c2 hc2).2.2
    · have hc1 : (nextContour oracle L s).1 = (c :: cs).getLast? := by rw [heq]
      have hp : p = (c :: cs).getLast (by simp) := by
        rcases hcase with hx | ⟨hx, _⟩
        · rw [hc1, List.getLast?_eq_getLast (c :: cs) (by simp)] at hx
          exact (Option.some.injEq _ _ ▸ hx).symm
        · rw [hc1, List.getLast?_eq_getLast (c :: cs) (by simp)] at hx
          exact absurd hx (by simp)
      have hmem : p ∈ c :: cs := by
        rw [hp]
        exact List.getLast_mem _
      obtain ⟨hlen, hsub⟩ := hInv.2 (c :: cs) hco p hmem
      have hqmem : ∀ c2 ∈ (c :: cs).dropLast,
          c2.length = L ∧ (∀ x ∈ c2, x ∈ pts) ∧ List.Chain' adjacentOrEq c2 := by
        intro c2 hc2
        have hmem2 : c2 ∈ c :: cs := List.mem_of_mem_dropLast hc2
        obtain ⟨hlen2, hsub2⟩ := hInv.2 (c :: cs) hco c2 hmem2
        exact ⟨hlen2, hsub2, hIA (c :: cs) hco c2 hmem2⟩
      rw [heq]
      refine ⟨hlen, hsub, hIA (c :: cs) hco p hmem, ⟨hufilter, ?_⟩, ?_, by rw [hu]⟩
      · intro q2 hq2 c2 hc2
        simp only [Option.some.injEq] at hq2
        subst hq2
        exact ⟨(hqmem c2 hc2).1, (hqmem c2 hc2).2.1⟩
      · intro q2 hq2 c2 hc2
        simp only [Option.some.injEq] at hq2
        subst hq2
        exact (hqmem c2 hc2).2.2

theorem runPass_succ (oracle : List Point → List (List Point)) (pts : List Point)
    (L : Nat) (fuel : Nat) (s : GenState) (p : List Point) (s2 : GenState)
    (h : genNext oracle pts L s = some (p, s2)) :
    runPass oracle pts L (fuel + 1) s =
      (p :: (runPass oracle pts L fuel s2).1, (runPass oracle pts L fuel s2).2) := by
  rw [runPass, h]

theorem runPass_stop (oracle : List Point → List (List Point)) (pts : List Point)
    (L : Nat) (fuel : Nat) (s : GenState) (h : s.unvisited = []) :
    runPass oracle pts L fuel s = ([], s) := by
  cases fuel with
  | zero => rfl
  | succ m =>
    rw [runPass, (genNext_none_iff oracle pts L s).mpr h]

theorem initState_inv (pts : List Point) (L : Nat) :
    PassInv pts L (initState pts) ∧ PassInvAdj (initState pts) := by
  refine ⟨⟨fun x hx => hx, ?_⟩, ?_⟩
  · intro q hq c hc
    simp only [initState, Option.some.injEq] at hq
    subst hq
    exact absurd hc (by simp)
  · intro q hq c hc
    simp only [initState, Option.some.injEq] at hq
    subst hq
    exact absurd hc (by simp)

/-- Whole-pass soundness (conforming oracle, `polygon_length ≥ 1`): every
emitted stroke has exactly `L` points inside the input set with
equal-or-adjacent consecutive pairs; the unvisited set only shrinks, and
every point it loses is in an emitted stroke. -/
theorem runPass_spec (oracle : List Point → List (List Point)) (pts : List Point)
    (L : Nat) (hL : 1 ≤ L) (hC : Conforming oracle) (hCA : ConformingAdj oracle) :
    ∀ fuel s, PassInv pts L s → PassInvAdj s →
      (∀ p ∈ (runPass oracle pts L fuel s).1,
        p.length = L ∧ (∀ x ∈ p, x ∈ pts) ∧ List.Chain' adjacentOrEq p) ∧
      (∀ x ∈ ((runPass oracle pts L fuel s).2).unvisited, x ∈ s.unvisited) ∧
      (∀ x ∈ s.unvisited,
        x ∈ ((runPass oracle pts L fuel s).2).unvisited ∨
          x ∈ (runPass oracle pts L fuel s).1.flatten) := by
  intro fuel
  induction fuel with
  | zero =>
    intro s _ _
    exact ⟨by simp [runPass], fun x hx => hx, fun x hx => Or.inl hx⟩
  | succ m ih =>
    intro s hInv hIA
    cases hg : genNext oracle pts L s with
    | none =>
      have hu := (genNext_none_iff oracle pts L s).mp hg
      rw [runPass_stop oracle pts L (m + 1) s hu]
      exact ⟨by simp, fun x hx => hx, fun x hx => Or.inl hx⟩
    | some r =>
      obtain ⟨p, s2⟩ := r
      obtain ⟨hlen, hsub, hchain, hInv2, hIA2, hufilt⟩ :=
        genNext_spec oracle pts L hL hC hCA s p s2 hInv hIA hg
      rw [runPass_succ oracle pts L m s p s2 hg]
      obtain ⟨ih1, ih2, ih3⟩ := ih s2 hInv2 hIA2
      refine ⟨?_, ?_, ?_⟩
      · intro q hq
        rcases List.mem_cons.mp hq with rfl | hq2
        · exact ⟨hlen, hsub, hchain⟩
        · exact ih1 q hq2
      · intro x hx
        have := ih2 x hx
        rw [hufilt] at this
        exact List.mem_of_mem_filter this
      · intro x hx
        by_cases hxp : x ∈ p
        · exact Or.inr (by simp only [List.flatten_cons, List.mem_append]; exact Or.inl hxp)
        · have hx2 : x ∈ s2.unvisited := by
            rw [hufilt]
            rw [List.mem_filter]
            exact ⟨hx, by simpa using hxp⟩
          rcases ih3 x hx2 with h1 | h1
          · exact Or.inl h1
          · exact Or.inr (by simp only [List.flatten_cons, List.mem_append]; exact Or.inr h1)

/-- The fallback branch of `__next__` (taken when `_next_contour` yields
nothing) removes at least the seed point from `unvisited`. -/
theorem genNext_fallback_seed (oracle : List Point → List (List Point))
    (pts : List Point) (L : Nat) (hL : 1 ≤ L) (s : GenState) (p : List Point)
    (s' : GenState) (a : Point) (rest : List Point) (hu : s.unvisited = a :: rest)
    (hnc : (nextContour oracle L s).1 = none)
    (h : genNext oracle pts L s = some (p, s')) :
    a ∈ s.unvisited ∧ a ∈ p ∧ a ∉ s'.unvisited := by
  obtain ⟨p2, hp2, hcase⟩ := genNext_eq oracle pts L s a rest hu
  rw [h] at hp2
  simp only [Option.some.injEq, Prod.mk.injEq] at hp2
  obtain ⟨rfl, rfl⟩ := hp2
  rcases hcase with hc1 | ⟨_, hp⟩
  · exact absurd (hnc ▸ hc1) (by simp)
  · rw [hu] at hp
    obtain ⟨_, f2, _, _⟩ := nextRandomPolygon_spec pts L hL a rest
    have hap : a ∈ p := hp ▸ f2
    refine ⟨by rw [hu]; exact List.mem_cons_self _ _, hap, ?_⟩
    intro hcon
    simp only [List.mem_filter] at hcon
    exact absurd hap (by simpa using hcon.2)

/-- If a pass runs to completion (final unvisited set empty), every point of
the starting unvisited set appears in some emitted stroke. -/
theorem runPass_complete (oracle : List Point → List (List Point)) (pts : List Point)
    (L : Nat) : ∀ fuel s,
      ((runPass oracle pts L fuel s).2).unvisited = [] →
      ∀ x ∈ s.unvisited, x ∈ (runPass oracle pts L fuel s).1.flatten := by
  intro fuel
  induction fuel with
  | zero =>
    intro s hfin x hx
    simp only [runPass] at hfin
    rw [hfin] at hx
    exact absurd hx (by simp)
  | succ m ih =>
    intro s hfin x hx
    cases hg : genNext oracle pts L s with
    | none =>
      have hu := (genNext_none_iff oracle pts L s).mp hg
      rw [hu] at hx
      exact absurd hx (by simp)
    | some r =>
      obtain ⟨p, s2⟩ := r
      rw [runPass_succ oracle pts L m s p s2 hg] at hfin ⊢
      by_cases hxp : x ∈ p
      · simp only [List.flatten_cons, List.mem_append]
        exact Or.inl hxp
      · cases hu : s.unvisited with
        | nil => rw [hu] at hx; exact absurd hx (by simp)
        | cons a rest =>
          obtain ⟨p2, hp2, _⟩ := genNext_eq oracle pts L s a rest hu
          rw [hg] at hp2
          simp only [Option.some.injEq, Prod.mk.injEq] at hp2
          obtain ⟨rfl, rfl⟩ := hp2
          have hx2 : x ∈ (⟨s.unvisited.filter (fun y => decide (y ∉ p)),
              ((nextContour oracle L s).2).contours⟩ : GenState).unvisited := by
            simp only [List.mem_filter]
            exact ⟨hx, by simpa using hxp⟩
          have := ih _ hfin x hx2
          simp only [List.flatten_cons, List.mem_append]
          exact Or.inr this

/-- A generation pass with a conforming oracle terminates: some finite fuel
empties the unvisited set. -/
theorem runPass_terminates (oracle : List Point → List (List Point)) (pts : List Point)
    (L : Nat) (hL : 1 ≤ L) (hC : Conforming oracle) :
    ∀ n s, s.unvisited.length ≤ n →
      ∃ fuel, ((runPass oracle pts L fuel s).2).unvisited = [] := by
  intro n
  induction n with
  | zero =>
    intro s hn
    exact ⟨0, List.length_eq_zero.mp (Nat.le_zero.mp hn)⟩
  | succ n ihn =>
    have hstep : ∀ s p s', genNext oracle pts L s = some (p, s') →
        s'.unvisited.length ≤ n →
        ∃ fuel, ((runPass oracle pts L fuel s).2).unvisited = [] := by
      intro s p s' hg hlen
      obtain ⟨f, hf⟩ := ihn s' hlen
      exact ⟨f + 1, by rw [runPass_succ oracle pts L f s p s' hg]; exact hf⟩
    have hnonpop : ∀ s a rest, s.unvisited = a :: rest →
        s.unvisited.length ≤ n + 1 →
        (s.contours = none ∨ s.contours = some []) →
        ∃ fuel, ((runPass oracle pts L fuel s).2).unvisited = [] := by
      intro s a rest hu hlen hco
      obtain ⟨p, hgen, hcase⟩ := genNext_eq oracle pts L s a rest hu
      have hwitness : ∃ y, y ∈ s.unvisited ∧ y ∈ p := by
        rcases nextContour_cases oracle L s with ⟨hco2, heq⟩ | ⟨hco2, hr, heq⟩ |
          ⟨c, cs, hco2, hr, heq⟩ | ⟨c, cs, hco2, heq⟩
        · rcases hcase with hc1 | ⟨_, hp⟩
          · rw [heq] at hc1
            exact absurd hc1 (by simp)
          · rw [hu] at hp
            obtain ⟨_, f2, _, _⟩ := nextRandomPolygon_spec pts L hL a rest
            exact ⟨a, by rw [hu]; exact List.mem_cons_self _ _, hp ▸ f2⟩
        · rcases hcase with hc1 | ⟨_, hp⟩
          · rw [heq] at hc1
            exact absurd hc1 (by simp)
          · rw [hu] at hp
            obtain ⟨_, f2, _, _⟩ := nextRandomPolygon_spec pts L hL a rest
            exact ⟨a, by rw [hu]; exact List.mem_cons_self _ _, hp ▸ f2⟩
        · have hc1 : (nextContour oracle L s).1 = (c :: cs).getLast? := by rw [heq]
          have hp : p = (c :: cs).getLast (by simp) := by
            rcases hcase with hx | ⟨hx, _⟩
            · rw [hc1, List.getLast?_eq_getLast (c :: cs) (by simp)] at hx
              exact (Option.some.injEq _ _ ▸ hx).symm
            · rw [hc1, List.getLast?_eq_getLast (c :: cs) (by simp)] at hx
              exact absurd hx (by simp)
          have hmem : p ∈ refillChunks oracle L s.unvisited := by
            rw [hr, hp]
            exact List.getLast_mem _
          obtain ⟨hlen2, loop, hloop, hsub, _⟩ :=
            refillChunks_mem oracle L hL s.unvisited p hmem
          have hpne : p ≠ [] := by
            intro hcon
            rw [hcon] at hlen2
            simp at hlen2
            omega
          match p, hpne with
          | y :: p2, _ =>
            exact ⟨y, hC _ loop hloop y (hsub y (List.mem_cons_self _ _)),
              List.mem_cons_self _ _⟩
        · rcases hco with hco3 | hco3 <;> rw [hco3] at hco2 <;>
            exact absurd hco2 (by simp)
      obtain ⟨y, hyu, hyp⟩ := hwitness
      have hdec : ((s.unvisited.filter (fun x => decide (x ∉ p))).length <
          s.unvisited.length) :=
        length_filter_lt _ s.unvisited y hyu (by simpa using hyp)
      refine hstep s p _ hgen ?_
      simp only
      rw [hu] at hdec hlen ⊢
      simp only [List.length_cons] at *
      omega
    intro s hn
    have inner : ∀ k s2, s2.unvisited.length ≤ n + 1 → queueLen s2 ≤ k →
        ∃ fuel, ((runPass oracle pts L fuel s2).2).unvisited = [] := by
      intro k
      induction k with
      | zero =>
        intro s2 hn2 hk2
        cases hu : s2.unvisited with
        | nil => exact ⟨0, hu⟩
        | cons a rest =>
          cases hco : s2.contours with
          | none => exact hnonpop s2 a rest hu hn2 (Or.inl hco)
          | some q =>
            match q, hco with
            | [], hco => exact hnonpop s2 a rest hu hn2 (Or.inr hco)
            | c :: cs, hco =>
              rw [queueLen, hco] at hk2
              simp at hk2
      | succ k ihk =>
        intro s2 hn2 hk2
        cases hu : s2.unvisited with
        | nil => exact ⟨0, hu⟩
        | cons a rest =>
          cases hco : s2.contours with
          | none => exact hnonpop s2 a rest hu hn2 (Or.inl hco)
          | some q =>
            match q, hco with
            | [], hco => exact hnonpop s2 a rest hu hn2 (Or.inr hco)
            | c :: cs, hco =>
              obtain ⟨p, hgen, hcase⟩ := genNext_eq oracle pts L s2 a rest hu
              rcases nextContour_cases oracle L s2 with ⟨hco2, heq⟩ | ⟨hco2, hr, heq⟩ |
                ⟨c2, cs2, hco2, hr, heq⟩ | ⟨c2, cs2, hco2, heq⟩
              · rw [hco] at hco2
                exact absurd hco2 (by simp)
              · rw [hco] at hco2
                simp only [Option.some.injEq] at hco2
                exact absurd hco2 (by simp)
              · rw [hco] at hco2
                simp only [Option.some.injEq] at hco2
                exact absurd hco2 (by simp)
              · have hstate : ((nextContour oracle L s2).2).contours =
                    some (c2 :: cs2).dropLast := by rw [heq]
                have hq2 : queueLen ⟨s2.unvisited.filter (fun x => decide (x ∉ p)),
                    ((nextContour oracle L s2).2).contours⟩ ≤ k := by
                  rw [queueLen, hstate]
                  rw [hco] at hco2
                  simp only [Option.some.injEq] at hco2
                  rw [queueLen, hco] at hk2
                  simp only [List.length_cons] at hk2
                  have hcs : cs.length = cs2.length := by
                    have := congrArg List.length hco2
                    simpa using this
                  simp only [List.length_dropLast, List.length_cons]
                  omega
                have hn3 : (⟨s2.unvisited.filter (fun x => decide (x ∉ p)),
                    ((nextContour oracle L s2).2).contours⟩ : GenState).unvisited.length
                      ≤ n + 1 := by
                  simp only
                  exact le_trans (List.length_filter_le _ _) hn2
                obtain ⟨f, hf⟩ := ihk _ hn3 hq2
                exact ⟨f + 1, by rw [runPass_succ oracle pts L f s2 p _ hgen]; exact hf⟩
    exact inner (queueLen s) s hn le_rfl

theorem chunksGo_length_of_dvd (L : Nat) (hL : 1 ≤ L) :
    ∀ fuel (l : List Point), l.length ≤ fuel → L ∣ l.length →
      ∀ c ∈ chunksGo L fuel l, c.length = L := by
  intro fuel
  induction fuel with
  | zero => intro l _ _ c hc; simp [chunksGo] at hc
  | succ n ih =>
    intro l hfuel hdvd c hc
    match l with
    | [] => simp [chunksGo] at hc
    | a :: t =>
      obtain ⟨m, hm⟩ := hdvd
      have hm1 : 1 ≤ m := by
        by_contra hcon
        have : m = 0 := by omega
        rw [this] at hm
        simp at hm
      simp only [chunksGo, List.mem_cons] at hc
      rcases hc with rfl | hc
      · rw [List.length_take]
        have : L ≤ (a :: t).length := by
          rw [hm]
          calc L = L * 1 := by omega
          _ ≤ L * m := Nat.mul_le_mul_left L hm1
        omega
      · have hmm : m = (m - 1) + 1 := by omega
        rw [hmm, Nat.mul_succ] at hm
        refine ih (List.drop L (a :: t)) ?_ ⟨m - 1, ?_⟩ c hc
        · rw [List.length_drop]
          simp only [List.length_cons] at *
          omega
        · rw [List.length_drop, hm]
          omega

theorem chunksOf_length_of_dvd (L : Nat) (hL : 1 ≤ L) (l : List Point)
    (hdvd : L ∣ l.length) : ∀ c ∈ chunksOf L l, c.length = L :=
  chunksGo_length_of_dvd L hL l.length l le_rfl hdvd

theorem chunksOf_ne_nil (L : Nat) (l : List Point) (hne : l ≠ []) :
    chunksOf L l ≠ [] := by
  match l, hne with
  | a :: t, _ =>
    rw [chunksOf, List.length_cons]
    simp [chunksGo]

/-- With a single loop whose length is a multiple of `polygon_length`, the
refill step delivers exactly the loop's chunk split. -/
theorem refillChunks_single_loop (oracle : List Point → List (List Point))
    (L : Nat) (hL : 1 ≤ L) (u : List Point) (loop : List Point)
    (horacle : oracle u = [loop]) (hdvd : L ∣ loop.length) :
    refillChunks oracle L u = chunksOf L loop := by
  rw [refillChunks, horacle]
  simp only [List.map_cons, List.map_nil, List.flatten_cons, List.flatten_nil,
    List.append_nil]
  rw [List.filter_eq_self.mpr]
  intro c hc
  rw [decide_eq_true_eq]
  exact chunksOf_length_of_dvd L hL loop hdvd c hc

/-- A pass-step from an empty pending queue whose refill succeeds behaves
exactly like a pass-step from a queue already holding the refill. -/
theorem runPass_refill (oracle : List Point → List (List Point)) (pts : List Point)
    (L : Nat) (u : List Point) (c : List Point) (cs : List (List Point))
    (hr : refillChunks oracle L u = c :: cs) (hune : u ≠ []) (fuel : Nat) :
    runPass oracle pts L (fuel + 1) ⟨u, some []⟩ =
      runPass oracle pts L (fuel + 1) ⟨u, some (c :: cs)⟩ := by
  have hnc : nextContour oracle L ⟨u, some []⟩ =
      nextContour oracle L ⟨u, some (c :: cs)⟩ := by
    rw [nextContour, nextContour]
    simp only [hr]
  have hgen : genNext oracle pts L ⟨u, some []⟩ =
      genNext oracle pts L ⟨u, some (c :: cs)⟩ := by
    rw [genNext, genNext]
    simp only [hnc]
  cases hg : genNext oracle pts L ⟨u, some (c :: cs)⟩ with
  | none =>
    have : u = [] := by
      simpa using (genNext_none_iff oracle pts L ⟨u, some (c :: cs)⟩).mp hg
    exact absurd this hune
  | some r =>
    obtain ⟨p, s2⟩ := r
    rw [runPass_succ oracle pts L fuel _ p s2 (hgen.trans hg),
      runPass_succ oracle pts L fuel _ p s2 hg]

/-- Draining a pending queue whose chunks exactly partition the unvisited
set: the strokes come out in reverse queue order and the pass ends with
everything visited. -/
theorem runPass_drain (oracle : List Point → List (List Point)) (pts : List Point)
    (L : Nat) :
    ∀ fuel (q : List (List Point)) (u : List Point), q.length ≤ fuel →
      (∀ x, x ∈ u ↔ x ∈ q.flatten) →
      q.flatten.Nodup →
      (∀ c ∈ q, c ≠ []) →
      runPass oracle pts L fuel ⟨u, some q⟩ = (q.reverse, ⟨[], some []⟩) := by
  intro fuel
  induction fuel with
  | zero =>
    intro q u hfuel hiff hnodup hne
    have hq : q = [] := List.length_eq_zero.mp (Nat.le_zero.mp hfuel)
    subst hq
    have hu : u = [] := by
      rw [List.eq_nil_iff_forall_not_mem]
      intro x hx
      simpa using (hiff x).mp hx
    subst hu
    rfl
  | succ m ih =>
    intro q u hfuel hiff hnodup hne
    match q with
    | [] =>
      have hu : u = [] := by
        rw [List.eq_nil_iff_forall_not_mem]
        intro x hx
        simpa using (hiff x).mp hx
      subst hu
      rw [runPass_stop oracle pts L (m + 1) ⟨[], some []⟩ rfl]
      rfl
    | c :: cs =>
      have hcne : c ≠ [] := hne c (List.mem_cons_self _ _)
      have hqeq : (c :: cs).dropLast ++ [(c :: cs).getLast (by simp)] = c :: cs :=
        List.dropLast_concat_getLast (by simp)
      have hune : u ≠ [] := by
        match c, hcne with
        | y :: c2, _ =>
          intro hcon
          have : y ∈ u := (hiff y).mpr (by simp)
          rw [hcon] at this
          exact absurd this (by simp)
      match hu : u, hune with
      | a :: rest, _ =>
        obtain ⟨p, hgen, hcase⟩ :=
          genNext_eq oracle pts L ⟨a :: rest, some (c :: cs)⟩ a rest rfl
        have hnc : nextContour oracle L ⟨a :: rest, some (c :: cs)⟩ =
            ((c :: cs).getLast?, ⟨a :: rest, some (c :: cs).dropLast⟩) := rfl
        have hp : p = (c :: cs).getLast (by simp) := by
          rcases hcase with hx | ⟨hx, _⟩
          · rw [hnc] at hx
            simp only [List.getLast?_eq_getLast (c :: cs) (by simp),
              Option.some.injEq] at hx
            exact hx.symm
          · rw [hnc] at hx
            simp only [List.getLast?_eq_getLast (c :: cs) (by simp)] at hx
            exact absurd hx (by simp)
        have hflat : (c :: cs).flatten =
            (c :: cs).dropLast.flatten ++ (c :: cs).getLast (by simp) := by
          conv_lhs => rw [← hqeq]
          rw [List.flatten_append]
          simp
        have hdisj : List.Disjoint ((c :: cs).dropLast.flatten)
            ((c :: cs).getLast (by simp)) := by
          rw [hflat] at hnodup
          exact (List.nodup_append.mp hnodup).2.2
        have hiff2 : ∀ x, x ∈ (a :: rest).filter (fun y => decide (y ∉ p)) ↔
            x ∈ (c :: cs).dropLast.flatten := by
          intro x
          rw [List.mem_filter]
          constructor
          · rintro ⟨hxu, hxnp⟩
            have hx2 := (hiff x).mp hxu
            rw [hflat] at hx2
            rcases List.mem_append.mp hx2 with hx3 | hx3
            · exact hx3
            · rw [hp] at hxnp
              simp only [decide_eq_true_eq] at hxnp
              exact absurd hx3 hxnp
          · intro hx
            refine ⟨(hiff x).mpr (by rw [hflat]; exact List.mem_append_left _ hx), ?_⟩
            rw [hp]
            simp only [decide_eq_true_eq]
            exact fun hcon => hdisj hx hcon
        have hnodup2 : (c :: cs).dropLast.flatten.Nodup := by
          rw [hflat] at hnodup
          exact (List.nodup_append.mp hnodup).1
        have hne2 : ∀ c2 ∈ (c :: cs).dropLast, c2 ≠ [] :=
          fun c2 hc2 => hne c2 (List.mem_of_mem_dropLast hc2)
        have hfuel2 : (c :: cs).dropLast.length ≤ m := by
          simp only [List.length_dropLast, List.length_cons] at *
          omega
        have hrec := ih (c :: cs).dropLast ((a :: rest).filter (fun y => decide (y ∉ p)))
          hfuel2 hiff2 hnodup2 hne2
        rw [runPass_succ oracle pts L m _ p _ hgen]
        rw [hnc]
        simp only
        rw [hrec]
        refine Prod.ext ?_ rfl
        simp only
        rw [hp]
        conv_rhs => rw [← hqeq]
        rw [List.reverse_append]
        simp

/-- A one-point input: the pass (with a conforming oracle) emits exactly one
stroke, the point repeated `polygon_length` times, and finishes. -/
theorem runPass_singleton (oracle : List Point → List (List Point)) (a : Point)
    (L : Nat) (hL : 1 ≤ L) (hC : Conforming oracle) :
    ∀ fuel, 2 ≤ fuel →
      (runPass oracle [a] L fuel (initState [a])).1 = [List.replicate L a] ∧
      ((runPass oracle [a] L fuel (initState [a])).2).unvisited = [] := by
  intro fuel hf
  match fuel, hf with
  | f + 2, _ =>
    obtain ⟨p, hgen, hcase⟩ := genNext_eq oracle [a] L (initState [a]) a [] rfl
    have hkey : p.length = L ∧ ∀ x ∈ p, x = a := by
      rcases nextContour_cases oracle L (initState [a]) with ⟨hco, heq⟩ | ⟨hco, hr, heq⟩ |
        ⟨c, cs, hco, hr, heq⟩ | ⟨c, cs, hco, heq⟩
      · exact absurd hco (by simp [initState])
      · rcases hcase with hc1 | ⟨_, hp⟩
        · rw [heq] at hc1
          exact absurd hc1 (by simp)
        · obtain ⟨f1, _, f3, _⟩ := nextRandomPolygon_spec [a] L hL a []
          refine ⟨by rw [hp]; exact f1, fun x hx => ?_⟩
          rw [hp] at hx
          rcases f3 x hx with h | h
          · exact h
          · simpa using h
      · have hc1 : (nextContour oracle L (initState [a])).1 = (c :: cs).getLast? := by
          rw [heq]
        have hp : p = (c :: cs).getLast (by simp) := by
          rcases hcase with hx | ⟨hx, _⟩
          · rw [hc1, List.getLast?_eq_getLast (c :: cs) (by simp)] at hx
            exact (Option.some.injEq _ _ ▸ hx).symm
          · rw [hc1, List.getLast?_eq_getLast (c :: cs) (by simp)] at hx
            exact absurd hx (by simp)
        have hmem : p ∈ refillChunks oracle L (initState [a]).unvisited := by
          rw [hr, hp]
          exact List.getLast_mem _
        obtain ⟨hlen, loop, hloop, hsub, _⟩ :=
          refillChunks_mem oracle L hL (initState [a]).unvisited p hmem
        refine ⟨hlen, fun x hx => ?_⟩
        have := hC _ loop hloop x (hsub x hx)
        simpa [initState] using this
      · exact absurd hco (by simp [initState])
    have hp : p = List.replicate L a := List.eq_replicate_iff.mpr ⟨hkey.1, hkey.2⟩
    have hap : a ∈ p := by
      rw [hp]
      exact List.mem_replicate.mpr ⟨by omega, rfl⟩
    have hfilter : (initState [a]).unvisited.filter (fun x => decide (x ∉ p)) = [] := by
      have hd : (decide (a ∉ p)) = false := by simp [hap]
      simp only [initState, List.filter_cons, hd]
      rfl
    rw [runPass_succ oracle [a] L (f + 1) _ p _ hgen]
    have hs1 : (⟨(initState [a]).unvisited.filter (fun x => decide (x ∉ p)),
        ((nextContour oracle L (initState [a])).2).contours⟩ : GenState).unvisited = [] :=
      hfilter
    rw [runPass_stop oracle [a] L (f + 1) _ hs1]
    exact ⟨by rw [hp], hs1⟩

theorem flatten_length_of_singletons (ll : List (List Point))
    (h : ∀ p ∈ ll, p.length = 1) : ll.flatten.length = ll.length := by
  induction ll with
  | nil => rfl
  | cons p rest ih =>
    simp only [List.flatten_cons, List.length_append, List.length_cons]
    rw [h p (List.mem_cons_self _ _), ih (fun q hq => h q (List.mem_cons_of_mem _ hq))]
    omega

theorem nodup_subset_length (l1 l2 : List Point) (h1 : l1.Nodup)
    (h2 : ∀ x ∈ l1, x ∈ l2) : l1.length ≤ l2.length := by
  calc l1.length = l1.toFinset.card := (List.toFinset_card_of_nodup h1).symm
  _ ≤ l2.toFinset.card := by
      refine Finset.card_le_card ?_
      intro x hx
      rw [List.mem_toFinset] at hx ⊢
      exact h2 x hx
  _ ≤ l2.length := List.toFinset_card_le l2

theorem conforming_emptyOracle : Conforming emptyOracle := by
  intro s c hc
  exact absurd hc (by simp [emptyOracle])

theorem conformingAdj_emptyOracle : ConformingAdj emptyOracle := by
  intro s c hc
  exact absurd hc (by simp [emptyOracle])

theorem conforming_lineOracle : Conforming lineOracle := by
  intro s c hc x hx
  rw [lineOracle] at hc
  split_ifs at hc with hs
  · simp only [List.mem_singleton] at hc
    subst hc
    subst hs
    fin_cases hx <;> decide
  · exact absurd hc (by simp)

theorem conformingAdj_lineOracle : ConformingAdj lineOracle := by
  intro s c hc
  rw [lineOracle] at hc
  split_ifs at hc with hs
  · simp only [List.mem_singleton] at hc
    subst hc
    simp only [List.chain'_cons, List.chain'_singleton, and_true]
    exact ⟨by decide, by decide, by decide⟩
  · exact absurd hc (by simp)

theorem conforming_ringOracle : Conforming ringOracle := by
  intro s c hc x hx
  rw [ringOracle] at hc
  split_ifs at hc with hs
  · simp only [List.mem_singleton] at hc
    subst hc
    subst hs
    exact hx
  · exact absurd hc (by simp)

theorem conformingAdj_ringOracle : ConformingAdj ringOracle := by
  intro s c hc
  rw [ringOracle] at hc
  split_ifs at hc with hs
  · simp only [List.mem_singleton] at hc
    subst hc
    simp only [ringPts, List.chain'_cons, List.chain'_singleton, and_true]
    exact ⟨by decide, by decide, by decide, by decide, by decide, by decide, by decide⟩
  · exact absurd hc (by simp)

/-- C7: for every start point, membership set, `max_length ≥ 1` and
predicate, a returned path starts at the start point, has at most
`max_length` points, and ends at a point satisfying the predicate; and when
no point satisfying the predicate is reachable within that budget,
`find_path` returns none. -/
theorem c7_find_path_contract (start : Point) (points : List Point) (maxLen : Nat)
    (pred : Point → Bool) (hL : 1 ≤ maxLen) :
    (∀ res, findPath start points maxLen pred = some res →
      res.head? = some start ∧ res.length ≤ maxLen ∧
      pred (res.getLastD start) = true) ∧
    (¬ ReachesWithin start points maxLen pred →
      findPath start points maxLen pred = none) := by
  constructor
  · intro res h
    obtain ⟨hne, hhead, hlen, hpred, _⟩ := findPath_some_spec start points maxLen pred res hL h
    exact ⟨hhead, hlen, hpred⟩
  · intro hnr
    cases hfp : findPath start points maxLen pred with
    | none => rfl
    | some res =>
      obtain ⟨hne, hhead, hlen, hpred, hchain, hdrop, _⟩ :=
        findPath_some_spec start points maxLen pred res hL hfp
      exact absurd ⟨res, hne, hhead, hlen, hdrop, hchain, hpred⟩ hnr

/-- Witness for C7 at a concrete input: searching from `cexA` in the two-point
segment for `cexB` with budget 2 returns the two-point path. -/
theorem c7_find_path_contract_witness :
    [cexA, cexB].head? = some cexA ∧ [cexA, cexB].length ≤ 2 ∧
    (fun q => decide (q = cexB)) ([cexA, cexB].getLastD cexA) = true :=
  (c7_find_path_contract cexA [cexA, cexB] 2 (fun q => decide (q = cexB))
    (by decide)).1 [cexA, cexB] (by decide)

/-- C6 counterexample: with membership set `{cexA, cexB}`, a predicate
satisfied only by the start `cexA`, and budget 3, `find_path` returns
`[cexA, cexB, cexA]`, in which the coordinate `cexA` occurs twice — the
returned path is not simple. -/
theorem c6_counterexample :
    findPath cexA [cexA, cexB] 3 cexPredA = some [cexA, cexB, cexA] ∧
    List.count cexA [cexA, cexB, cexA] = 2 := by decide

/-- C6 (amended): every path returned by `find_path` repeats no coordinate
other than the start, and the start itself occurs at most twice (the source
never adds the start to the visited set, so the path may return to it
once). -/
theorem c6_find_path_near_simple (start : Point) (points : List Point)
    (maxLen : Nat) (pred : Point → Bool) (res : List Point) (hL : 1 ≤ maxLen)
    (h : findPath start points maxLen pred = some res) :
    (∀ q, q ≠ start → res.count q ≤ 1) ∧ res.count start ≤ 2 := by
  obtain ⟨_, _, _, _, _, _, hc1, hc2, _⟩ := findPath_some_spec start points maxLen pred res hL h
  exact ⟨hc1, hc2⟩

/-- Witness for the amended C6 at the concrete counterexample input. -/
theorem c6_find_path_near_simple_witness :
    List.count cexB [cexA, cexB, cexA] ≤ 1 ∧ List.count cexA [cexA, cexB, cexA] ≤ 2 :=
  ⟨(c6_find_path_near_simple cexA [cexA, cexB] 3 cexPredA [cexA, cexB, cexA]
      (by decide) (by decide)).1 cexB (by decide),
   (c6_find_path_near_simple cexA [cexA, cexB] 3 cexPredA [cexA, cexB, cexA]
      (by decide) (by decide)).2⟩

/-- C10 counterexample: with membership set `{cexA, cexB}` and a predicate
satisfied only by the start `cexA` (in particular by no other point of the
set), budget 3 does not return none: the search re-reaches the start as a
neighbor of `cexB` and tests the predicate on it. -/
theorem c10_counterexample :
    findPath cexA [cexA, cexB] 3 cexPredA = some [cexA, cexB, cexA] ∧
    cexPredA cexA = true ∧ cexPredA cexB = false := by decide

/-- C10 (amended): `find_path` never tests the predicate on the start at
depth zero — for `max_length ≥ 2` the one-point path `[start]` is never
returned (every returned path has at least two points) and only for
`max_length = 1` does a start satisfying the predicate yield `[start]`; but
the start is never marked visited, so for larger budgets it can be re-reached
as a neighbor and accepted, as the counterexample shows. -/
theorem c10_start_predicate (start : Point) (points : List Point)
    (pred : Point → Bool) :
    (∀ maxLen res, 2 ≤ maxLen → findPath start points maxLen pred = some res →
      2 ≤ res.length) ∧
    (findPath start points 1 pred = some [start] ↔ pred start = true) := by
  constructor
  · intro maxLen res hml h
    exact (findPath_some_spec start points maxLen pred res (by omega) h).2.2.2.2.2.2.2.2 hml
  · rw [findPath, if_pos rfl]
    constructor
    · intro h
      by_contra hp
      rw [if_neg hp] at h
      exact absurd h (by simp)
    · intro hp
      rw [if_pos hp]

/-- Witness for the amended C10 at the concrete counterexample input. -/
theorem c10_start_predicate_witness :
    2 ≤ [cexA, cexB, cexA].length ∧
    (findPath cexA [cexA, cexB] 1 cexPredA = some [cexA] ↔ cexPredA cexA = true) :=
  ⟨(c10_start_predicate cexA [cexA, cexB] cexPredA).1 3 [cexA, cexB, cexA]
      (by decide) (by decide),
   (c10_start_predicate cexA [cexA, cexB] cexPredA).2⟩

/-- C5 counterexample: `max_stroke_length = 0` supplied to the stroke
generator with an empty input set raises no error at all — the pass simply
ends with no strokes (the generator performs no validation at entry). -/
theorem c5_counterexample :
    runPassE emptyOracle [] 0 3 (initState []) = .ok [] := rfl

/-- C5 (amended): `find_path` reports an error exactly when
`max_length ≤ 0` (and that is its only error); the stroke generator performs
no validation at construction: with `max_stroke_length ≤ 0` the first stroke
request raises (from `Polygon.split` or from the negative padding count)
whenever the input is non-empty, and no error ever occurs when the input is
empty. -/
theorem c5_invalid_configuration (start : Point) (points : List Point)
    (pred : Point → Bool) (oracle : List Point → List (List Point))
    (pts : List Point) (L : Int) :
    ((∃ e, findPathE start points L pred = .error e) ↔ L ≤ 0) ∧
    (genNextE oracle pts L (initState []) = .ok none) ∧
    (L ≤ 0 → pts ≠ [] → ∃ e, genNextE oracle pts L (initState pts) = .error e) := by
  refine ⟨?_, ?_, ?_⟩
  · constructor
    · rintro ⟨e, he⟩
      by_contra hL
      rw [findPathE, if_neg hL] at he
      exact absurd he (by simp)
    · intro hL
      exact ⟨_, by rw [findPathE, if_pos hL]⟩
  · rfl
  · intro hL hne
    match pts, hne with
    | a :: rest, _ =>
      rw [genNextE]
      simp only [initState]
      rw [nextContourE]
      simp only
      rw [refillChunksE]
      by_cases ho : (oracle (a :: rest)).isEmpty
      · rw [if_pos ho]
        simp only
        rw [nextRandomPolygonE]
        simp only [if_pos hL]
        exact ⟨_, rfl⟩
      · rw [if_neg ho, if_pos hL]
        exact ⟨_, rfl⟩

/-- Witness for the amended C5: at `max_length = -1` the path finder errors;
at `L = -1` with the one-point input the generator's first stroke request
errors while construction succeeded. -/
theorem c5_invalid_configuration_witness :
    ((∃ e, findPathE cexA [cexA] (-1) cexPredA = .error e) ↔ (-1 : Int) ≤ 0) ∧
    (genNextE emptyOracle [cexA] (-1) (initState []) = .ok none) ∧
    ((-1 : Int) ≤ 0 → [cexA] ≠ [] →
      ∃ e, genNextE emptyOracle [cexA] (-1) (initState [cexA]) = .error e) :=
  c5_invalid_configuration cexA [cexA] cexPredA emptyOracle [cexA] (-1)

/-- C1: for every finite input point set and every conforming contour
extractor (spec-modelled: loops lie inside the queried set, consecutive loop
points equal-or-adjacent) and every `max_stroke_length ≥ 1`, the
deduplicated union of the points of all strokes emitted over the whole pass
equals the deduplicated input set — no input point is absent from every
stroke, and no stroke contains a point outside the input set — and some
finite fuel completes the pass. -/
theorem c1_completeness (oracle : List Point → List (List Point)) (pts : List Point)
    (L : Nat) (hL : 1 ≤ L) (hC : Conforming oracle) (hCA : ConformingAdj oracle) :
    (∀ fuel, ((runPass oracle pts L fuel (initState pts)).2).unvisited = [] →
      ∀ x, x ∈ (pointsToPolygons oracle pts L fuel).flatten ↔ x ∈ pts) ∧
    (∃ fuel, ((runPass oracle pts L fuel (initState pts)).2).unvisited = []) := by
  constructor
  · intro fuel hfin x
    obtain ⟨r1, _, _⟩ := runPass_spec oracle pts L hL hC hCA fuel (initState pts)
      (initState_inv pts L).1 (initState_inv pts L).2
    constructor
    · intro hx
      rw [pointsToPolygons, List.mem_flatten] at hx
      obtain ⟨p, hp, hxp⟩ := hx
      exact (r1 p hp).2.1 x hxp
    · intro hx
      exact runPass_complete oracle pts L fuel (initState pts) hfin x hx
  · exact runPass_terminates oracle pts L hL hC pts.length (initState pts) le_rfl

/-- Witness for C1: the one-point set with no contours, stroke length 2. -/
theorem c1_completeness_witness :
    (cexA ∈ (pointsToPolygons emptyOracle [cexA] 2 3).flatten ↔ cexA ∈ [cexA]) ∧
    (∃ fuel, ((runPass emptyOracle [cexA] 2 fuel (initState [cexA])).2).unvisited = []) :=
  ⟨(c1_completeness emptyOracle [cexA] 2 (by decide) conforming_emptyOracle
      conformingAdj_emptyOracle).1 3 (by decide) cexA,
   (c1_completeness emptyOracle [cexA] 2 (by decide) conforming_emptyOracle
      conformingAdj_emptyOracle).2⟩

/-- C2 counterexample: an empty input emits zero strokes, not one empty
stroke; a one-point input `(50,50)` with `max_stroke_length = 5` emits the
point padded to 5 copies, not the one-point set verbatim. -/
theorem c2_counterexample :
    pointsToPolygons emptyOracle [] 5 3 = [] ∧
    pointsToPolygons emptyOracle [⟨50, 50⟩] 5 3 = [List.replicate 5 ⟨50, 50⟩] ∧
    List.replicate 5 (⟨50, 50⟩ : Point) ≠ [⟨50, 50⟩] := by decide

/-- C2 (amended): with a conforming contour extractor and
`max_stroke_length ≥ 1`, every emitted stroke has exactly
`max_stroke_length` points with no degenerate exception; an empty input
emits zero strokes, and a one-point input emits exactly one stroke, the
point repeated `max_stroke_length` times. -/
theorem c2_length_contract (oracle : List Point → List (List Point)) (pts : List Point)
    (L : Nat) (fuel : Nat) (hL : 1 ≤ L) (hC : Conforming oracle)
    (hCA : ConformingAdj oracle) :
    (∀ p ∈ pointsToPolygons oracle pts L fuel, p.length = L) ∧
    (pointsToPolygons oracle [] L fuel = []) ∧
    (∀ a : Point, 2 ≤ fuel →
      pointsToPolygons oracle [a] L fuel = [List.replicate L a]) := by
  refine ⟨?_, ?_, ?_⟩
  · intro p hp
    exact ((runPass_spec oracle pts L hL hC hCA fuel (initState pts)
      (initState_inv pts L).1 (initState_inv pts L).2).1 p hp).1
  · rw [pointsToPolygons, runPass_stop oracle [] L fuel (initState []) rfl]
  · intro a hf
    exact (runPass_singleton oracle a L hL hC fuel hf).1

/-- Witness for the amended C2 at concrete inputs. -/
theorem c2_length_contract_witness :
    [cexB, cexB].length = 2 ∧ pointsToPolygons emptyOracle [] 2 3 = [] ∧
    pointsToPolygons emptyOracle [cexB] 2 3 = [List.replicate 2 cexB] :=
  ⟨(c2_length_contract emptyOracle [cexB] 2 3 (by decide) conforming_emptyOracle
      conformingAdj_emptyOracle).1 [cexB, cexB] (by decide),
   (c2_length_contract emptyOracle [cexB] 2 3 (by decide) conforming_emptyOracle
      conformingAdj_emptyOracle).2.1,
   (c2_length_contract emptyOracle [cexB] 2 3 (by decide) conforming_emptyOracle
      conformingAdj_emptyOracle).2.2 cexB (by decide)⟩

/-- C3: for every stroke emitted by `points_to_polygons` (conforming oracle,
`max_stroke_length ≥ 1`) and every pair of consecutive points in it, the
pair is equal (padding) or at Chebyshev distance exactly 1. -/
theorem c3_adjacency (oracle : List Point → List (List Point)) (pts : List Point)
    (L : Nat) (fuel : Nat) (hL : 1 ≤ L) (hC : Conforming oracle)
    (hCA : ConformingAdj oracle) :
    ∀ p ∈ pointsToPolygons oracle pts L fuel, List.Chain' adjacentOrEq p :=
  fun p hp => ((runPass_spec oracle pts L hL hC hCA fuel (initState pts)
    (initState_inv pts L).1 (initState_inv pts L).2).1 p hp).2.2

/-- Witness for C3 at a concrete stroke of the 3-pixel line pass. -/
theorem c3_adjacency_witness : List.Chain' adjacentOrEq [pt1] :=
  c3_adjacency lineOracle linePts 1 10 (by decide) conforming_lineOracle
    conformingAdj_lineOracle [pt1] (by decide)

/-- C4 counterexample: on the 3-pixel line with `max_stroke_length = 1` and
the (spec-conforming) out-and-back boundary trace, the pass emits 4 strokes
for 3 input points — more than `|unvisited_initial|` — and its third stroke
(a stale pending chunk) removes no point at all from `unvisited`. -/
theorem c4_counterexample :
    pointsToPolygons lineOracle linePts 1 10 = [[pt1], [pt2], [pt1], [pt0]] ∧
    linePts.length = 3 ∧
    ((runPass lineOracle linePts 1 2 (initState linePts)).2).unvisited =
      ((runPass lineOracle linePts 1 3 (initState linePts)).2).unvisited := by decide

/-- C4 (amended): during a pass the unvisited set never gains an element
(after each stroke it is a subset of its previous value); the generator
stops exactly when the unvisited set is empty; every fallback stroke removes
at least its seed point; and with a conforming oracle the pass terminates —
but a stale contour chunk may remove no points, so the number of strokes can
exceed the number of distinct input points. -/
theorem c4_unvisited_monotone (oracle : List Point → List (List Point))
    (pts : List Point) (L : Nat) (hL : 1 ≤ L) (hC : Conforming oracle) :
    (∀ s p s', genNext oracle pts L s = some (p, s') →
      ∀ x ∈ s'.unvisited, x ∈ s.unvisited ∧ x ∉ p) ∧
    (∀ s, genNext oracle pts L s = none ↔ s.unvisited = []) ∧
    (∀ s p s' a rest, s.unvisited = a :: rest →
      (nextContour oracle L s).1 = none →
      genNext oracle pts L s = some (p, s') →
      a ∈ s.unvisited ∧ a ∈ p ∧ a ∉ s'.unvisited) ∧
    (∃ fuel, ((runPass oracle pts L fuel (initState pts)).2).unvisited = []) := by
  refine ⟨?_, fun s => genNext_none_iff oracle pts L s, ?_, ?_⟩
  · intro s p s' h x hx
    cases hu : s.unvisited with
    | nil =>
      rw [(genNext_none_iff oracle pts L s).mpr hu] at h
      exact absurd h (by simp)
    | cons a rest =>
      obtain ⟨p2, hp2, _⟩ := genNext_eq oracle pts L s a rest hu
      rw [h] at hp2
      simp only [Option.some.injEq, Prod.mk.injEq] at hp2
      obtain ⟨rfl, rfl⟩ := hp2
      simp only [List.mem_filter] at hx
      exact ⟨hu ▸ hx.1, by simpa using hx.2⟩
  · intro s p s' a rest hu hnc h
    exact genNext_fallback_seed oracle pts L hL s p s' a rest hu hnc h
  · exact runPass_terminates oracle pts L hL hC pts.length (initState pts) le_rfl

/-- Witness for the amended C4 at a concrete input. -/
theorem c4_unvisited_monotone_witness :
    (genNext emptyOracle [cexA] 2 (initState [cexA]) = none ↔
      (initState [cexA]).unvisited = []) ∧
    (∃ fuel, ((runPass emptyOracle [cexA] 2 fuel (initState [cexA])).2).unvisited = []) :=
  ⟨(c4_unvisited_monotone emptyOracle [cexA] 2 (by decide)
      conforming_emptyOracle).2.1 (initState [cexA]),
   (c4_unvisited_monotone emptyOracle [cexA] 2 (by decide)
      conforming_emptyOracle).2.2.2⟩

/-- C8 counterexample: on the 8-pixel ring with `max_stroke_length = 4`, the
loop splits into chunks `A` then `B` in trace order, but the pass emits
`[B, A]` — the reverse of the order the chunks occur along the traced loop
(`list.pop()` pops the most recently appended chunk). -/
theorem c8_counterexample :
    chunksOf 4 ringPts =
      [[⟨0, 0⟩, ⟨1, 0⟩, ⟨2, 0⟩, ⟨2, 1⟩], [⟨2, 2⟩, ⟨1, 2⟩, ⟨0, 2⟩, ⟨0, 1⟩]] ∧
    pointsToPolygons ringOracle ringPts 4 5 =
      [[⟨2, 2⟩, ⟨1, 2⟩, ⟨0, 2⟩, ⟨0, 1⟩], [⟨0, 0⟩, ⟨1, 0⟩, ⟨2, 0⟩, ⟨2, 1⟩]] ∧
    ([[⟨2, 2⟩, ⟨1, 2⟩, ⟨0, 2⟩, ⟨0, 1⟩], [⟨0, 0⟩, ⟨1, 0⟩, ⟨2, 0⟩, ⟨2, 1⟩]] :
        List (List Point)) ≠
      [[⟨0, 0⟩, ⟨1, 0⟩, ⟨2, 0⟩, ⟨2, 1⟩], [⟨2, 2⟩, ⟨1, 2⟩, ⟨0, 2⟩, ⟨0, 1⟩]] := by decide

/-- C8 (amended): for an input forming a single closed ring whose traced
loop (spec-modelled single contour, duplicate-free, covering the input)
has length an exact multiple of `max_stroke_length`, every emitted stroke is
a chunk of the contour split and no fallback stroke is ever built — but the
strokes are emitted in the REVERSE of the order the chunks occur along the
traced loop. -/
theorem c8_contour_chunks (oracle : List Point → List (List Point)) (pts : List Point)
    (L : Nat) (loop : List Point) (hL : 1 ≤ L) (horacle : oracle pts = [loop])
    (hnodup : loop.Nodup) (hcover : ∀ x, x ∈ loop ↔ x ∈ pts) (hne : loop ≠ [])
    (hdvd : L ∣ loop.length) :
    ∀ fuel, (chunksOf L loop).length + 1 ≤ fuel →
      pointsToPolygons oracle pts L fuel = (chunksOf L loop).reverse ∧
      ((runPass oracle pts L fuel (initState pts)).2).unvisited = [] := by
  intro fuel hfuel
  match fuel, hfuel with
  | f + 1, hfuel =>
    have hrefill : refillChunks oracle L pts = chunksOf L loop :=
      refillChunks_single_loop oracle L hL pts loop horacle hdvd
    have hchne : chunksOf L loop ≠ [] := chunksOf_ne_nil L loop hne
    match hch : chunksOf L loop, hchne with
    | c :: cs, _ =>
      have hpne : pts ≠ [] := by
        match loop, hne with
        | y :: l2, _ =>
          intro hcon
          have : y ∈ pts := (hcover y).mp (List.mem_cons_self _ _)
          rw [hcon] at this
          exact absurd this (by simp)
      have hflat : (c :: cs).flatten = loop := by
        rw [← hch]
        exact chunksOf_flatten L hL loop
      have hstep := runPass_refill oracle pts L pts c cs (by rw [hrefill, hch]) hpne f
      have hdrain := runPass_drain oracle pts L (f + 1) (c :: cs) pts
        (by
          have := congrArg List.length hch
          simp only [List.length_cons] at this ⊢
          omega)
        (by
          intro x
          rw [hflat]
          exact (hcover x).symm)
        (by rw [hflat]; exact hnodup)
        (by
          intro c2 hc2
          have hc3 : c2 ∈ chunksOf L loop := by rw [hch]; exact hc2
          have := chunksOf_length_of_dvd L hL loop hdvd c2 hc3
          intro hcon
          rw [hcon] at this
          simp at this
          omega)
      constructor
      · rw [pointsToPolygons]
        show (runPass oracle pts L (f + 1) ⟨pts, some []⟩).1 = _
        rw [hstep, hdrain]
      · show ((runPass oracle pts L (f + 1) ⟨pts, some []⟩).2).unvisited = []
        rw [hstep, hdrain]

/-- Witness for the amended C8 at the concrete 8-pixel ring. -/
theorem c8_contour_chunks_witness :
    pointsToPolygons ringOracle ringPts 4 3 = (chunksOf 4 ringPts).reverse ∧
    ((runPass ringOracle ringPts 4 3 (initState ringPts)).2).unvisited = [] :=
  c8_contour_chunks ringOracle ringPts 4 ringPts (by decide) (by decide) (by decide)
    (fun x => Iff.rfl) (by decide) (by decide) 3 (by decide)

/-- C9 counterexample: on the 3-pixel line with the (spec-conforming)
out-and-back boundary trace and `max_stroke_length = 1`, the pass emits 4
strokes while the input has 3 distinct points. -/
theorem c9_counterexample :
    (pointsToPolygons lineOracle linePts 1 10).length = 4 ∧ linePts.Nodup ∧
    linePts.length = 3 := by decide

/-- C9 (amended): with `max_stroke_length = 1` (conforming oracle), every
emitted stroke contains exactly one point, and when the pass completes the
number of emitted strokes is at least — not exactly — the number of
distinct input points (a stale contour chunk can repeat an already-covered
point). -/
theorem c9_singleton_length (oracle : List Point → List (List Point))
    (pts : List Point) (fuel : Nat) (hC : Conforming oracle)
    (hCA : ConformingAdj oracle) (hnd : pts.Nodup) :
    (∀ p ∈ pointsToPolygons oracle pts 1 fuel, p.length = 1) ∧
    (((runPass oracle pts 1 fuel (initState pts)).2).unvisited = [] →
      pts.length ≤ (pointsToPolygons oracle pts 1 fuel).length) := by
  have hlen : ∀ p ∈ pointsToPolygons oracle pts 1 fuel, p.length = 1 := by
    intro p hp
    exact ((runPass_spec oracle pts 1 le_rfl hC hCA fuel (initState pts)
      (initState_inv pts 1).1 (initState_inv pts 1).2).1 p hp).1
  refine ⟨hlen, ?_⟩
  intro hfin
  have hsub : ∀ x ∈ pts, x ∈ (pointsToPolygons oracle pts 1 fuel).flatten := by
    intro x hx
    exact runPass_complete oracle pts 1 fuel (initState pts) hfin x hx
  calc pts.length ≤ (pointsToPolygons oracle pts 1 fuel).flatten.length :=
        nodup_subset_length pts _ hnd hsub
  _ = (pointsToPolygons oracle pts 1 fuel).length :=
        flatten_length_of_singletons _ hlen

/-- Witness for the amended C9 on the 3-pixel line (4 strokes ≥ 3 points). -/
theorem c9_singleton_length_witness :
    [pt1].length = 1 ∧
    linePts.length ≤ (pointsToPolygons lineOracle linePts 1 10).length :=
  ⟨(c9_singleton_length lineOracle linePts 10 conforming_lineOracle
      conformingAdj_lineOracle (by decide)).1 [pt1] (by decide),
   (c9_singleton_length lineOracle linePts 10 conforming_lineOracle
      conformingAdj_lineOracle (by decide)).2 (by decide)⟩

end ImgToSwipes
